import Mathlib

set_option maxRecDepth 8000

/-!
Verification development for the forward presolve pass
`implied_free_action::presolve` of `src/CoinPresolveImpliedFree.cpp`.

Shallow embedding conventions:
* C `double` values are modelled as exact rationals `ℚ`; the constants
  `1e20`, `1e31`, `1e8`, `1e-12` and `DBL_MAX` are the corresponding exact
  rationals.  All comparisons in the source are order comparisons, which the
  rational model mirrors exactly on the concrete inputs used below.
* The dual sparse matrix (`colels_/hrow_/mcstrt_/hincol_` and
  `rowels_/hcol_/mrstrt_/hinrow_`) is modelled by the per-column and per-row
  lists of live `(index, coefficient)` pairs; `hincol`/`hinrow` are the list
  lengths.
* The mutable problem state threaded through the pass (`CoinPresolveMatrix`)
  is the record `St` below; the scan-local arrays allocated by the pass
  (`infiniteUp`, `infiniteDown`, `maxUp`, `maxDown`, `implied_free`) and the
  per-column working variables (`low`, `high`) live in the same record so that
  the whole pass is a function `St → St`.
* `prob->status_ |= 1` is `status ||| 1`; the `COIN_PRESOLVE_ROWINFEAS`
  message is modelled as appending `(row, rlo row, rup row)` to `log`.
* The external collaborators invoked at the very end of the pass
  (`isolated_constraint_action::presolve` and
  `subst_constraint_action::presolve`) are out of scope per the spec; the
  pass returns the isolated row (if any) and the action list instead of
  invoking them.
-/

namespace CoinImpliedFree

/- The Batteries rational arithmetic operations are `@[irreducible]`, which
blocks `decide`-style evaluation of the embedding on concrete inputs; they
are restored to their natural reducibility for this file. -/
attribute [local semireducible] Rat.mul Rat.inv Rat.add Rat.sub

/-- The constant `1.0e20` (line 101 of the source): magnitude from which a column bound is
treated as infinite. -/
def large : ℚ := 10 ^ 20

/-- The constant `1.0e31` (lines 187-188): the synthetic per-infinite-contribution
magnitude folded into `maxUpx`/`maxDownx`. -/
def bigM : ℚ := 10 ^ 31

/-- The constant `COIN_DBL_MAX` = C `DBL_MAX` = `2^1024 - 2^971`, exactly (written as a
decimal literal so that kernel evaluation needs no large exponentiation). -/
def COIN_DBL_MAX : ℚ := 179769313486231570814527423731704356798070567525844996598917476803157260780028538760589558632766878171540458953514382464234321326889464182768467546703537516986049910576551282076245490090389328944075868508455133942304583236903222948165808559332123348274797826204144723168738177180919299881250404026184124858368

/-- Modelled from the spec: the zero tolerance `ZTOLDP` comes from the
presolve headers, which are not under `src/`; the spec only calls it the
threshold for a "numerically significant coefficient".  Its exact value is
immaterial to every claim below; we fix it to `1e-12`. -/
def ZTOLDP : ℚ := 1 / 10 ^ 12

/-- Modelled from the spec: `PRESOLVE_INF`, the presolve infinity sentinel
from the headers (not under `src/`), equal to `COIN_DBL_MAX`. -/
def PRESOLVE_INF : ℚ := COIN_DBL_MAX

/-- The constant `1.0e-12`, the strict-improvement margin of the incremental bound
tightening (lines 253, 284, 317, 348). -/
def eps12 : ℚ := 1 / 10 ^ 12

/-- The constant `1.0e8`, the magnitude above which a derived bound is relaxed by
`1e-12 * |sum|` (lines 243, 248, ...). -/
def e8 : ℚ := 10 ^ 8

/-- Immutable configuration of one `presolve` invocation: problem sizes, the
integrality marks and the feasibility tolerance (all read-only in the
source). -/
structure Cfg where
  ncols : Nat
  nrows : Nat
  integerType : Nat → Bool
  tol : ℚ

/-- The mutable state threaded through the pass.  `colEntries j` is the live
slice `colels_[mcstrt_[j] ..]`/`hrow_`, `rowEntries r` the live slice
`rowels_[mrstrt_[r] ..]`/`hcol_`.  `tag` is the `infiniteUp` array
(`-1` not computed, `-2` give up singleton, `-3` give up other, `≥ 0` the
cached `infiniteUpper` count), `infDown`/`mUp`/`mDown` the other three cache
arrays, `impliedFree` the `implied_free` classification array.  `status` is
`prob->status_`, `log` the emitted `COIN_PRESOLVE_ROWINFEAS` diagnostics,
`bias` the objective offset changed by `prob->change_bias`.  `low`, `high`
and `broke` are the per-column working variables of the degree-2/3 walk;
`aborted` records the `break` out of the main column loop taken on the
singleton-path infeasibility. -/
structure St where
  colEntries : Nat → List (Nat × ℚ)
  rowEntries : Nat → List (Nat × ℚ)
  clo : Nat → ℚ
  cup : Nat → ℚ
  rlo : Nat → ℚ
  rup : Nat → ℚ
  cost : Nat → ℚ
  bias : ℚ
  status : Nat
  log : List (Nat × ℚ × ℚ)
  tag : Nat → Int
  infDown : Nat → Int
  mUp : Nat → ℚ
  mDown : Nat → ℚ
  impliedFree : Nat → Int
  low : ℚ
  high : ℚ
  broke : Bool
  aborted : Bool

/-- The count `hincol_[j]`: number of live coefficients of column `j`. -/
def hincol (s : St) (j : Nat) : Nat := (s.colEntries j).length

/-- The count `hinrow_[r]`: number of live coefficients of row `r`. -/
def hinrow (s : St) (r : Nat) : Nat := (s.rowEntries r).length

/-- Lines 154-186: one pass over a row computing
`(infiniteUpper, infiniteLower, maximumUp, maximumDown)` from the current
column bounds. -/
def rowSums (s : St) (entries : List (Nat × ℚ)) : Nat × Nat × ℚ × ℚ :=
  entries.foldl
    (fun acc e =>
      if 0 < e.2 then
        ((if large ≤ s.cup e.1 then acc.1 + 1 else acc.1),
         (if s.clo e.1 ≤ -large then acc.2.1 + 1 else acc.2.1),
         (if large ≤ s.cup e.1 then acc.2.2.1 else acc.2.2.1 + s.cup e.1 * e.2),
         (if s.clo e.1 ≤ -large then acc.2.2.2 else acc.2.2.2 + s.clo e.1 * e.2))
      else if e.2 < 0 then
        ((if s.clo e.1 ≤ -large then acc.1 + 1 else acc.1),
         (if large ≤ s.cup e.1 then acc.2.1 + 1 else acc.2.1),
         (if s.clo e.1 ≤ -large then acc.2.2.1 else acc.2.2.1 + s.clo e.1 * e.2),
         (if large ≤ s.cup e.1 then acc.2.2.2 else acc.2.2.2 + s.cup e.1 * e.2))
      else acc)
    (0, 0, 0, 0)

/-- The four-way decision of lines 187-222 on a freshly computed row
summary. -/
inductive RowClass where
  | redundant
  | infeasibleUp
  | infeasibleDown
  | summary
deriving DecidableEq, Repr

/-- Lines 187-222: the row-activity classification exactly as coded, with
`maxUpx = maximumUp + infiniteUpper*1e31` and
`maxDownx = maximumDown - infiniteLower*1e31` compared against the row
bounds. -/
def classifyRow (rlo rup tol : ℚ) (iU iL : Nat) (mU mD : ℚ) : RowClass :=
  if mU + (iU : ℚ) * bigM ≤ rup + tol ∧ rlo - tol ≤ mD - (iL : ℚ) * bigM then
    RowClass.redundant
  else if mU + (iU : ℚ) * bigM < rlo - tol then RowClass.infeasibleUp
  else if rup + tol < mD - (iL : ℚ) * bigM then RowClass.infeasibleDown
  else RowClass.summary

/-- The row-activity classification as the spec words it: "counts gate the
logic" — an infinite-contribution count makes the corresponding activity
side unbounded, so that side can never satisfy a finite comparison; the
finite running sums are compared only when their side has no unbounded
contribution.  This definition follows the spec's words and exists to be
compared with `classifyRow`, which is translated from the source. -/
def classifyRowSpec (rlo rup tol : ℚ) (iU iL : Nat) (mU mD : ℚ) : RowClass :=
  if (iU = 0 ∧ mU ≤ rup + tol) ∧ (iL = 0 ∧ rlo - tol ≤ mD) then
    RowClass.redundant
  else if iU = 0 ∧ mU < rlo - tol then RowClass.infeasibleUp
  else if iL = 0 ∧ rup + tol < mD then RowClass.infeasibleDown
  else RowClass.summary

/-- The classification of row `r` in state `s` (lines 150-222, the
`infiniteUp[row]==-1` branch). -/
def rowClass (cfg : Cfg) (s : St) (r : Nat) : RowClass :=
  let q := rowSums s (s.rowEntries r)
  classifyRow (s.rlo r) (s.rup r) cfg.tol q.1 q.2.1 q.2.2.1 q.2.2.2

/-- Lines 150-222: computing a not-yet-computed row summary and acting on its
classification: redundant rows are tagged `-3`; infeasible rows set the
sticky status bit, emit the `ROWINFEAS` diagnostic, are tagged `-3` and
`break` the column walk; otherwise the four summary values are cached. -/
def computeRow (cfg : Cfg) (r : Nat) (s : St) : St :=
  match rowClass cfg s r with
  | RowClass.redundant => { s with tag := Function.update s.tag r (-3) }
  | RowClass.infeasibleUp =>
      { s with tag := Function.update s.tag r (-3),
               status := s.status ||| 1,
               log := s.log ++ [(r, s.rlo r, s.rup r)],
               broke := true }
  | RowClass.infeasibleDown =>
      { s with tag := Function.update s.tag r (-3),
               status := s.status ||| 1,
               log := s.log ++ [(r, s.rlo r, s.rup r)],
               broke := true }
  | RowClass.summary =>
      let q := rowSums s (s.rowEntries r)
      { s with tag := Function.update s.tag r (q.1 : Int),
               infDown := Function.update s.infDown r (q.2.1 : Int),
               mUp := Function.update s.mUp r q.2.2.1,
               mDown := Function.update s.mDown r q.2.2.2 }

/-- The relaxation `newBound -= 1.0e-12*fabs(m)` when `fabs(m) > 1.0e8` (lines 243-244 and
symmetric places). -/
def relaxDown (x m : ℚ) : ℚ := if e8 < |m| then x - eps12 * |m| else x

/-- The relaxation `newBound += 1.0e-12*fabs(m)` when `fabs(m) > 1.0e8` (lines 274-275 and
symmetric places). -/
def relaxUp (x m : ℚ) : ℚ := if e8 < |m| then x + eps12 * |m| else x

/-- Lines 224-363: deriving a candidate bound for the column from one cached
row summary, with the four sign/side combinations and the incremental
in-iteration tightening of the local working copies.  Returns the updated
`(low, high)` accumulators.  The source's updates of the locals
`maximumUp`/`nowUpper`/`infiniteUpper` in the second half of the positive
branch (lines 284-296) and of `maximumUp`/`nowLower`/`infiniteUpper` in the
second half of the negative branch (lines 348-360) are read by no later
statement of the iteration and are omitted; the updates that *are* read by
the second half of each branch (lines 253-265 and 317-329) are modelled. -/
def fourCases (value lower upper nowLower0 nowUpper0 : ℚ) (iU iL : Int)
    (mU mD : ℚ) (low0 high0 : ℚ) : ℚ × ℚ :=
  if 0 < value then
    let s1 : ℚ × ℚ × ℚ × Int :=
      if -large < lower then
        let nb :=
          if iU = 0 then relaxDown (nowUpper0 + (lower - mU) / value) mU
          else if iU = 1 ∧ large < nowUpper0 then relaxDown ((lower - mU) / value) mU
          else -COIN_DBL_MAX
        if nowLower0 + eps12 < nb then
          (max low0 nb,
           mD + (nb - (if nowLower0 < -large then 0 else nowLower0)) * value,
           nb,
           if nowLower0 < -large then iL - 1 else iL)
        else (max low0 nb, mD, nowLower0, iL)
      else (low0, mD, nowLower0, iL)
    let high1 :=
      if upper < large then
        let nb :=
          if s1.2.2.2 = 0 then relaxUp (s1.2.2.1 + (upper - s1.2.1) / value) s1.2.1
          else if s1.2.2.2 = 1 ∧ s1.2.2.1 < -large then relaxUp ((upper - s1.2.1) / value) s1.2.1
          else COIN_DBL_MAX
        min high0 nb
      else high0
    (s1.1, high1)
  else
    let s1 : ℚ × ℚ × ℚ × Int :=
      if -large < lower then
        let nb :=
          if iU = 0 then relaxUp (nowLower0 + (lower - mU) / value) mU
          else if iU = 1 ∧ nowLower0 < -large then relaxUp ((lower - mU) / value) mU
          else COIN_DBL_MAX
        if nb < nowUpper0 - eps12 then
          (min high0 nb,
           mD + (nb - (if large < nowUpper0 then 0 else nowUpper0)) * value,
           nb,
           if large < nowUpper0 then iL - 1 else iL)
        else (min high0 nb, mD, nowUpper0, iL)
      else (high0, mD, nowUpper0, iL)
    let low1 :=
      if upper < large then
        let nb :=
          if s1.2.2.2 = 0 then relaxDown (s1.2.2.1 + (upper - s1.2.1) / value) s1.2.1
          else if s1.2.2.2 = 1 ∧ large < s1.2.2.1 then relaxDown ((upper - s1.2.1) / value) s1.2.1
          else -COIN_DBL_MAX
        max low0 nb
      else low0
    (low1, s1.1)

/-- Lines 224-369: the tail of the per-row loop body, run on the state after
the possible summary computation: an infeasibility `break` absorbs the rest;
a cached summary (`tag ≥ 0`) feeds the bound derivation; a give-up tag
(`-3`) resets the implied range to unbounded and breaks. -/
def walkStepGo (j : Nat) (e : Nat × ℚ) (s1 : St) : St :=
  if s1.broke then s1
  else if 0 ≤ s1.tag e.1 then
    { s1 with
      low := (fourCases e.2 (s1.rlo e.1) (s1.rup e.1) (s1.clo j) (s1.cup j)
        (s1.tag e.1) (s1.infDown e.1) (s1.mUp e.1) (s1.mDown e.1) s1.low s1.high).1,
      high := (fourCases e.2 (s1.rlo e.1) (s1.rup e.1) (s1.clo j) (s1.cup j)
        (s1.tag e.1) (s1.infDown e.1) (s1.mUp e.1) (s1.mDown e.1) s1.low s1.high).2 }
  else if s1.tag e.1 = -3 then
    { s1 with low := -COIN_DBL_MAX, high := COIN_DBL_MAX, broke := true }
  else s1

/-- Lines 146-370, body of the per-row loop of the degree-2/3 walk: skip
numerically insignificant coefficients; compute a not-yet-computed summary
(possibly breaking on infeasibility); then act on the tag. -/
def walkStep (cfg : Cfg) (j : Nat) (e : Nat × ℚ) (s : St) : St :=
  if ZTOLDP < |e.2| then
    walkStepGo j e (if s.tag e.1 = -1 then computeRow cfg e.1 s else s)
  else s

/-- Lines 146-371: the walk over the column's rows, with `break` modelled by
the `broke` flag absorbing the rest of the list. -/
def walkCol (cfg : Cfg) (j : Nat) : List (Nat × ℚ) → St → St
  | [], s => s
  | e :: rest, s => if s.broke then s else walkCol cfg j rest (walkStep cfg j e s)

/-- Lines 143-145: the per-column working variables entering the walk
(`low = -COIN_DBL_MAX`, `high = COIN_DBL_MAX`). -/
def initWalk (s : St) : St :=
  { s with low := -COIN_DBL_MAX, high := COIN_DBL_MAX, broke := false }

/-- Lines 121-141: the pre-scan of a degree-2/3 column computing
`(possible, singleton, largestElement)`. -/
def phaseA (cfg : Cfg) (s : St) (entries : List (Nat × ℚ)) : Bool × Bool × ℚ :=
  entries.foldl
    (fun acc e =>
      if 1 < hinrow s e.1 then
        ((if |s.rlo e.1 - s.rup e.1| < cfg.tol ∧ ZTOLDP < |e.2| then true else acc.1),
         acc.2.1,
         max acc.2.2 |e.2|)
      else (acc.1, true, acc.2.2))
    (false, false, 0)

/-- Lines 379-389: the defining-row selection fold, accumulating
`(krow, ninrow)`, initialised to `(-1, ncols+1)`. -/
def selectGo (cfg : Cfg) (s : St) (th : ℚ) :
    List (Nat × ℚ) → Option Nat × Nat → Option Nat × Nat
  | [], acc => acc
  | e :: rest, acc =>
      selectGo cfg s th rest
        (if |s.rlo e.1 - s.rup e.1| < cfg.tol ∧ th < |e.2| ∧ hinrow s e.1 < acc.2
         then (some e.1, hinrow s e.1) else acc)

/-- Lines 376-389: among the equality rows touching the column whose
coefficient magnitude exceeds the threshold, the first row attaining the
minimal `hinrow`. -/
def select (cfg : Cfg) (s : St) (entries : List (Nat × ℚ)) (th : ℚ) :
    Option Nat × Nat :=
  selectGo cfg s th entries (none, cfg.ncols + 1)

/-- Lines 390-396: acting on the defining-row selection: record the chosen
row in `implied_free[j]` and mark it unusable (`infiniteUp[krow] = -3`). -/
def scanAccept (cfg : Cfg) (j : Nat) (entries : List (Nat × ℚ)) (th : ℚ)
    (w : St) : St :=
  match (select cfg w entries th).1 with
  | some k =>
      { w with impliedFree := Function.update w.impliedFree j (k : Int),
               tag := Function.update w.tag k (-3) }
  | none => w

/-- Lines 119-398: the full degree-2/3 candidate scan of column `j`:
pre-scan, walk, acceptance test `clo[j] <= low && high <= cup[j]`, and
defining-row selection with give-up marking of the chosen row. -/
def scanCol23 (cfg : Cfg) (j : Nat) (s : St) : St :=
  if (phaseA cfg s (s.colEntries j)).1 = true ∧
      (phaseA cfg s (s.colEntries j)).2.1 = false then
    if (walkCol cfg j (s.colEntries j) (initWalk s)).clo j ≤
          (walkCol cfg j (s.colEntries j) (initWalk s)).low ∧
        (walkCol cfg j (s.colEntries j) (initWalk s)).high ≤
          (walkCol cfg j (s.colEntries j) (initWalk s)).cup j then
      scanAccept cfg j (s.colEntries j) ((phaseA cfg s (s.colEntries j)).2.2 / 10)
        (walkCol cfg j (s.colEntries j) (initWalk s))
    else walkCol cfg j (s.colEntries j) (initWalk s)
  else s

/-- Modelled from the spec: the collaborator `implied_bounds` (declared in
the presolve headers, implementation not under `src/`), "a
row-bound-implication helper returning `(max_up, max_down, implied_low,
implied_high)` for a single row given one excluded column": the row's
activity range restricted to the other columns via the same activity logic
(counts of unbounded contributions make a side infinite), and the bounds for
the excluded column implied by the row bounds and that range. -/
def implied_bounds (s : St) (entries : List (Nat × ℚ)) (j : Nat)
    (rlo rup : ℚ) : ℚ × ℚ × ℚ × ℚ :=
  let q := rowSums s (entries.filter (fun e => e.1 != j))
  let a := ((entries.filter (fun e => e.1 == j)).headD (j, 0)).2
  let maxup : ℚ := if q.1 = 0 then q.2.2.1 else PRESOLVE_INF
  let maxdown : ℚ := if q.2.1 = 0 then q.2.2.2 else -PRESOLVE_INF
  if 0 < a then
    (maxup, maxdown,
     (if maxup = PRESOLVE_INF ∨ rlo ≤ -large then -PRESOLVE_INF else (rlo - maxup) / a),
     (if maxdown = -PRESOLVE_INF ∨ large ≤ rup then PRESOLVE_INF else (rup - maxdown) / a))
  else if a < 0 then
    (maxup, maxdown,
     (if maxdown = -PRESOLVE_INF ∨ large ≤ rup then -PRESOLVE_INF else (rup - maxdown) / a),
     (if maxup = PRESOLVE_INF ∨ rlo ≤ -large then PRESOLVE_INF else (rlo - maxup) / a))
  else (maxup, maxdown, -PRESOLVE_INF, PRESOLVE_INF)

/-- Lines 410-444: the checks of the singleton path on the `implied_bounds`
result `(maxup, maxdown, ilow, iup)`: the two infeasibility checks (which
set the sticky status bit, emit the diagnostic, and `break` the whole
candidate loop, modelled by `aborted`), then the acceptance test
`clo[j] <= ilow && iup <= cup[j]`. -/
def singletonChecks (cfg : Cfg) (j row : Nat) (ib : ℚ × ℚ × ℚ × ℚ)
    (s : St) : St :=
  if ib.1 < PRESOLVE_INF ∧ ib.1 + cfg.tol < s.rlo row then
    { s with status := s.status ||| 1,
             log := s.log ++ [(row, s.rlo row, s.rup row)],
             aborted := true }
  else if -PRESOLVE_INF < ib.2.1 ∧ s.rup row < ib.2.1 - cfg.tol then
    { s with status := s.status ||| 1,
             log := s.log ++ [(row, s.rlo row, s.rup row)],
             aborted := true }
  else if s.clo j ≤ ib.2.2.1 ∧ ib.2.2.2 ≤ s.cup j then
    { s with impliedFree := Function.update s.impliedFree j (row : Int),
             tag := Function.update s.tag row (-3) }
  else s

/-- Lines 399-446: the singleton-column path: the eligibility gate
`(!cost[j] || rlo[row]==rup[row]) && hinrow[row]>1 && fabs(coeffj)>ZTOLDP &&
infiniteUp[row]!=-3`, then the `implied_bounds` checks. -/
def scanColSingleton (cfg : Cfg) (j : Nat) (s : St) : St :=
  if (s.cost j = 0 ∨
        s.rlo ((s.colEntries j).headD (0, 0)).1 = s.rup ((s.colEntries j).headD (0, 0)).1) ∧
      1 < hinrow s ((s.colEntries j).headD (0, 0)).1 ∧
      ZTOLDP < |((s.colEntries j).headD (0, 0)).2| ∧
      s.tag ((s.colEntries j).headD (0, 0)).1 ≠ -3 then
    singletonChecks cfg j ((s.colEntries j).headD (0, 0)).1
      (implied_bounds s (s.rowEntries ((s.colEntries j).headD (0, 0)).1) j
        (s.rlo ((s.colEntries j).headD (0, 0)).1) (s.rup ((s.colEntries j).headD (0, 0)).1))
      s
  else s

/-- Lines 116-448, body: dispatch a candidate column to the degree-2/3 path
or the singleton path. -/
def scanCol (cfg : Cfg) (j : Nat) (s : St) : St :=
  if hincol s j ≤ 3 ∧ cfg.integerType j = false then
    if 1 < hincol s j then scanCol23 cfg j s
    else if hincol s j ≠ 0 then scanColSingleton cfg j s
    else s
  else s

/-- Lines 116-448: the candidate scan over the worklist, with the
singleton-path `break` modelled by the `aborted` flag absorbing the rest of
the worklist. -/
def scanColumns (cfg : Cfg) : List Nat → St → St
  | [], s => s
  | j :: rest, s =>
      if s.aborted then s else scanColumns cfg rest (scanCol cfg j s)

/-- Lines 512-529: the cost-redistribution loop
`cost[jcol] += costj * (-coeff / coeffj)` over the row's entries (skipping
the eliminated column itself). -/
def elimCostsGo (j : Nat) (a cj : ℚ) :
    List (Nat × ℚ) → (Nat → ℚ) → Nat → ℚ
  | [], cst => cst
  | e :: rest, cst =>
      elimCostsGo j a cj rest
        (if e.1 ≠ j then Function.update cst e.1 (cst e.1 + cj * (-e.2 / a))
         else cst)

/-- Lines 505-541: redistribute the eliminated column's cost over the other
columns of the defining row and zero it (`cost[j] = 0.0`). -/
def elimCosts (entries : List (Nat × ℚ)) (j : Nat) (a cj : ℚ)
    (cost : Nat → ℚ) : Nat → ℚ :=
  Function.update (elimCostsGo j a cj entries cost) j 0

/-- The undo record of lines 488-503 (`struct action`): row and column ids,
saved column and row bounds, the row's full coefficient list, and the saved
costs when the eliminated column had nonzero cost on an equality row. -/
structure ActionRec where
  row : Nat
  col : Nat
  aclo : ℚ
  acup : ℚ
  arlo : ℚ
  arup : ℚ
  rowels : List (Nat × ℚ)
  costs : Option (List ℚ)

/-- Lines 473-478: total live-coefficient count over the row's columns, used
by the isolated-row test `n == hinrow[row]`. -/
def rowNzSum (s : St) (entries : List (Nat × ℚ)) : Nat :=
  (entries.map (fun e => hincol s e.1)).sum

/-- Lines 484-559: eliminate an accepted singleton column `j` and its row:
build the action, redistribute costs and adjust the bias when
`cost[j] != 0 && fabs(rup-rlo) <= tol`, delete the row's coefficients from
all its columns, empty the row, zero its bounds, and reset
`implied_free[j]`. -/
def elimStep (cfg : Cfg) (j : Nat) (s : St) : St × ActionRec :=
  let e0 := (s.colEntries j).headD (0, 0)
  let row := e0.1
  let entries := s.rowEntries row
  let nzc : Bool :=
    if s.cost j ≠ 0 ∧ |s.rup row - s.rlo row| ≤ cfg.tol then true else false
  let act : ActionRec :=
    { row := row, col := j, aclo := s.clo j, acup := s.cup j,
      arlo := s.rlo row, arup := s.rup row, rowels := entries,
      costs := if nzc then some (entries.map (fun e => s.cost e.1)) else none }
  ({ s with
      cost := if nzc then elimCosts entries j e0.2 (s.cost j) s.cost else s.cost,
      bias := if nzc then s.bias + s.cost j * s.rlo row / e0.2 else s.bias,
      colEntries := fun c =>
        if (entries.map Prod.fst).contains c then
          (s.colEntries c).filter (fun e => e.1 != row)
        else s.colEntries c,
      rowEntries := Function.update s.rowEntries row [],
      rlo := Function.update s.rlo row 0,
      rup := Function.update s.rup row 0,
      impliedFree := Function.update s.impliedFree j (-1) }, act)

/-- Lines 456-561: the singleton-elimination loop over the worklist: eliminate
each still-singleton accepted column, except that detecting an isolated row
(`n == hinrow[row]`) records it and `break`s the loop at once. -/
def elimLoop (cfg : Cfg) :
    List Nat → St → List ActionRec → St × List ActionRec × Option Nat
  | [], s, acc => (s, acc, none)
  | j :: rest, s, acc =>
      if hincol s j = 1 ∧ 0 ≤ s.impliedFree j then
        if rowNzSum s (s.rowEntries ((s.colEntries j).headD (0, 0)).1) =
            hinrow s ((s.colEntries j).headD (0, 0)).1 then
          (s, acc, some ((s.colEntries j).headD (0, 0)).1)
        else
          elimLoop cfg rest (elimStep cfg j s).1 (acc ++ [(elimStep cfg j s).2])
      else elimLoop cfg rest s acc

/-- Lines 79-114: the pass-local allocations: `implied_free` all `-1`,
`infiniteUp[i] = -1` for rows with more than one coefficient and `-2`
otherwise; the other caches and working variables start indeterminate
(modelled as `0`/`false`). -/
def initSt (s : St) : St :=
  { s with tag := fun r => if 1 < hinrow s r then -1 else -2,
           infDown := fun _ => 0,
           mUp := fun _ => 0,
           mDown := fun _ => 0,
           impliedFree := fun _ => -1,
           low := 0, high := 0, broke := false, aborted := false }

/-- Lines 46-587: the whole forward pass on a worklist `look` (the caller's
`colsToDo_`, or all columns when `fill_level < 0`): candidate scan, then the
singleton-elimination loop.  Returns the final state, the recorded actions,
and the detected isolated row (handed to the external
`isolated_constraint_action`, out of scope); the `implied_free`
classification handed to the external `subst_constraint_action` is the
`impliedFree` field of the returned state. -/
def presolve (cfg : Cfg) (look : List Nat) (s : St) : St × List ActionRec × Option Nat :=
  elimLoop cfg look (scanColumns cfg look (initSt s)) []

/-- The fields of `St` the candidate scan only reads: bound arrays, cost,
both matrix views, the classification array and the bias. -/
def roPart (s : St) :
    (Nat → ℚ) × (Nat → ℚ) × (Nat → ℚ) × (Nat → ℚ) × (Nat → ℚ) ×
    (Nat → List (Nat × ℚ)) × (Nat → List (Nat × ℚ)) × (Nat → Int) × ℚ :=
  (s.clo, s.cup, s.rlo, s.rup, s.cost, s.colEntries, s.rowEntries,
   s.impliedFree, s.bias)

/-- The fields of `St` no part of the scan phase writes. -/
def scanFrame (s : St) :
    (Nat → ℚ) × (Nat → ℚ) × (Nat → ℚ) × (Nat → ℚ) × (Nat → ℚ) ×
    (Nat → List (Nat × ℚ)) × (Nat → List (Nat × ℚ)) × ℚ :=
  (s.clo, s.cup, s.rlo, s.rup, s.cost, s.colEntries, s.rowEntries, s.bias)

/-- Concrete two-column, two-row instance: both columns fully free
(bounds `±DBL_MAX`), both appearing in the equality row `0`
(`x0 + x1 = 5`) and the inequality row `1` (`0 ≤ x0 + x1 ≤ 10`). -/
def cfg1 : Cfg := { ncols := 2, nrows := 2, integerType := fun _ => false, tol := 1 / 10 ^ 7 }

/-- State of the `cfg1` instance before the pass. -/
def st1 : St :=
  { colEntries := fun j => if j = 0 then [(0,1),(1,1)] else if j = 1 then [(0,1),(1,1)] else [],
    rowEntries := fun r => if r = 0 then [(0,1),(1,1)] else if r = 1 then [(0,1),(1,1)] else [],
    clo := fun _ => -COIN_DBL_MAX,
    cup := fun _ => COIN_DBL_MAX,
    rlo := fun r => if r = 0 then 5 else 0,
    rup := fun r => if r = 0 then 5 else 10,
    cost := fun _ => 0,
    bias := 0, status := 0, log := [],
    tag := fun _ => -1, infDown := fun _ => 0, mUp := fun _ => 0, mDown := fun _ => 0,
    impliedFree := fun _ => -1,
    low := 0, high := 0, broke := false, aborted := false }

/-- Concrete instance for the degree-2 acceptance test: the free column `0`
has coefficient `1` in the equality row `0` (`x0 + x1 = 5`) and coefficient
`100` in the inequality row `1` (`0 ≤ 100 x0 + x1 ≤ 10`); `x1 ∈ [0,5]`. -/
def cfg3 : Cfg := { ncols := 2, nrows := 2, integerType := fun _ => false, tol := 1 / 10 ^ 7 }

/-- State of the `cfg3` instance before the pass. -/
def st3 : St :=
  { colEntries := fun j => if j = 0 then [(0,1),(1,100)] else if j = 1 then [(0,1),(1,1)] else [],
    rowEntries := fun r => if r = 0 then [(0,1),(1,1)] else if r = 1 then [(0,100),(1,1)] else [],
    clo := fun j => if j = 0 then -COIN_DBL_MAX else 0,
    cup := fun j => if j = 0 then COIN_DBL_MAX else 5,
    rlo := fun r => if r = 0 then 5 else 0,
    rup := fun r => if r = 0 then 5 else 10,
    cost := fun _ => 0,
    bias := 0, status := 0, log := [],
    tag := fun _ => -1, infDown := fun _ => 0, mUp := fun _ => 0, mDown := fun _ => 0,
    impliedFree := fun _ => -1,
    low := 0, high := 0, broke := false, aborted := false }

/-- Concrete one-row instance for the row classification: row `0` is
`x0 - 10^13 x1 = 0` with `x0 ∈ [0, 10^20]` (infinite upper bound) and
`x1 ∈ [10^19, 2*10^19]`, so `infiniteUpper = 1` and
`maximumUp = -10^32`. -/
def cfg2 : Cfg := { ncols := 2, nrows := 1, integerType := fun _ => false, tol := 1 / 10 ^ 7 }

/-- State of the `cfg2` instance. -/
def st2 : St :=
  { colEntries := fun j => if j = 0 then [(0,1)] else if j = 1 then [(0,-(10:ℚ)^13)] else [],
    rowEntries := fun r => if r = 0 then [(0,1),(1,-(10:ℚ)^13)] else [],
    clo := fun j => if j = 0 then 0 else 10^19,
    cup := fun j => if j = 0 then 10^20 else 2 * 10^19,
    rlo := fun _ => 0, rup := fun _ => 0,
    cost := fun _ => 0,
    bias := 0, status := 0, log := [],
    tag := fun _ => -1, infDown := fun _ => 0, mUp := fun _ => 0, mDown := fun _ => 0,
    impliedFree := fun _ => -1,
    low := 0, high := 0, broke := false, aborted := false }

/-- Concrete instance whose row `0` (`10 ≤ x0 + x2 ≤ 11` with
`x0, x2 ∈ [0,1]`) is detected infeasible during the walk of column `0`;
row `1` is the equality `x0 + x3 = 3` making the column eligible. -/
def cfg7 : Cfg := { ncols := 4, nrows := 2, integerType := fun _ => false, tol := 1 / 10 ^ 7 }

/-- State of the `cfg7` instance before the pass. -/
def st7 : St :=
  { colEntries := fun j =>
      if j = 0 then [(0,1),(1,1)] else if j = 2 then [(0,1)]
      else if j = 3 then [(1,1)] else [],
    rowEntries := fun r =>
      if r = 0 then [(0,1),(2,1)] else if r = 1 then [(0,1),(3,1)] else [],
    clo := fun _ => 0,
    cup := fun _ => 1,
    rlo := fun r => if r = 0 then 10 else 3,
    rup := fun r => if r = 0 then 11 else 3,
    cost := fun _ => 0,
    bias := 0, status := 0, log := [],
    tag := fun _ => -1, infDown := fun _ => 0, mUp := fun _ => 0, mDown := fun _ => 0,
    impliedFree := fun _ => -1,
    low := 0, high := 0, broke := false, aborted := false }

/-- Concrete instance with an accepted singleton column: column `0` is a
zero-cost singleton of the equality row `0` (`x0 + x1 = 5`, `x1 ∈ [0,5]`)
with declared bounds `[0,5]`. -/
def cfg8 : Cfg := { ncols := 2, nrows := 1, integerType := fun _ => false, tol := 1 / 10 ^ 7 }

/-- State of the `cfg8` instance before the pass. -/
def st8 : St :=
  { colEntries := fun j => if j ≤ 1 then [(0,1)] else [],
    rowEntries := fun r => if r = 0 then [(0,1),(1,1)] else [],
    clo := fun _ => 0,
    cup := fun _ => 5,
    rlo := fun _ => 5, rup := fun _ => 5,
    cost := fun _ => 0,
    bias := 0, status := 0, log := [],
    tag := fun _ => -1, infDown := fun _ => 0, mUp := fun _ => 0, mDown := fun _ => 0,
    impliedFree := fun _ => -1,
    low := 0, high := 0, broke := false, aborted := false }

/-- Concrete instance entering the elimination loop with an isolated row:
columns `0` and `1` are both accepted singletons of row `0`, and row `0`'s
columns have no other coefficients, so `n == hinrow[row]`. -/
def cfg10 : Cfg := { ncols := 2, nrows := 1, integerType := fun _ => false, tol := 1 / 10 ^ 7 }

/-- State of the `cfg10` instance entering the elimination loop. -/
def st10 : St :=
  { colEntries := fun j => if j ≤ 1 then [(0,1)] else [],
    rowEntries := fun r => if r = 0 then [(0,1),(1,1)] else [],
    clo := fun _ => 0,
    cup := fun _ => 5,
    rlo := fun _ => 5, rup := fun _ => 5,
    cost := fun _ => 0,
    bias := 0, status := 0, log := [],
    tag := fun _ => -1, infDown := fun _ => 0, mUp := fun _ => 0, mDown := fun _ => 0,
    impliedFree := fun j => if j ≤ 1 then 0 else -1,
    low := 0, high := 0, broke := false, aborted := false }

end CoinImpliedFree

namespace CoinImpliedFree

attribute [local semireducible] Rat.mul Rat.inv Rat.add Rat.sub

theorem computeRow_ro (cfg : Cfg) (r : Nat) (s : St) :
    roPart (computeRow cfg r s) = roPart s := by
  unfold computeRow
  cases rowClass cfg s r <;> rfl

theorem walkStepGo_ro (j : Nat) (e : Nat × ℚ) (s : St) :
    roPart (walkStepGo j e s) = roPart s := by
  unfold walkStepGo
  split
  · rfl
  · split
    · rfl
    · split <;> rfl

theorem walkStep_ro (cfg : Cfg) (j : Nat) (e : Nat × ℚ) (s : St) :
    roPart (walkStep cfg j e s) = roPart s := by
  unfold walkStep
  split
  · refine (walkStepGo_ro _ _ _).trans ?_
    split
    · exact computeRow_ro cfg e.1 s
    · rfl
  · rfl

theorem walkCol_ro (cfg : Cfg) (j : Nat) (l : List (Nat × ℚ)) (s : St) :
    roPart (walkCol cfg j l s) = roPart s := by
  induction l generalizing s with
  | nil => rfl
  | cons e rest ih =>
      unfold walkCol
      split
      · rfl
      · exact (ih _).trans (walkStep_ro cfg j e s)

theorem roPart_clo {s t : St} (h : roPart s = roPart t) : s.clo = t.clo :=
  congrArg (fun p => p.1) h

theorem roPart_cup {s t : St} (h : roPart s = roPart t) : s.cup = t.cup :=
  congrArg (fun p => p.2.1) h

theorem roPart_rlo {s t : St} (h : roPart s = roPart t) : s.rlo = t.rlo :=
  congrArg (fun p => p.2.2.1) h

theorem roPart_rup {s t : St} (h : roPart s = roPart t) : s.rup = t.rup :=
  congrArg (fun p => p.2.2.2.1) h

theorem roPart_cost {s t : St} (h : roPart s = roPart t) : s.cost = t.cost :=
  congrArg (fun p => p.2.2.2.2.1) h

theorem roPart_colEntries {s t : St} (h : roPart s = roPart t) :
    s.colEntries = t.colEntries :=
  congrArg (fun p => p.2.2.2.2.2.1) h

theorem roPart_rowEntries {s t : St} (h : roPart s = roPart t) :
    s.rowEntries = t.rowEntries :=
  congrArg (fun p => p.2.2.2.2.2.2.1) h

theorem roPart_impliedFree {s t : St} (h : roPart s = roPart t) :
    s.impliedFree = t.impliedFree :=
  congrArg (fun p => p.2.2.2.2.2.2.2.1) h

theorem roPart_bias {s t : St} (h : roPart s = roPart t) : s.bias = t.bias :=
  congrArg (fun p => p.2.2.2.2.2.2.2.2) h

theorem roPart_scanFrame {s t : St} (h : roPart s = roPart t) :
    scanFrame s = scanFrame t := by
  unfold scanFrame
  rw [roPart_clo h, roPart_cup h, roPart_rlo h, roPart_rup h, roPart_cost h,
    roPart_colEntries h, roPart_rowEntries h, roPart_bias h]

theorem scanAccept_frame (cfg : Cfg) (j : Nat) (entries : List (Nat × ℚ))
    (th : ℚ) (w : St) : scanFrame (scanAccept cfg j entries th w) = scanFrame w := by
  unfold scanAccept
  cases (select cfg w entries th).1 <;> rfl

theorem scanCol23_frame (cfg : Cfg) (j : Nat) (s : St) :
    scanFrame (scanCol23 cfg j s) = scanFrame s := by
  unfold scanCol23
  split
  · split
    · exact (scanAccept_frame _ _ _ _ _).trans
        (roPart_scanFrame (walkCol_ro cfg j _ (initWalk s)))
    · exact roPart_scanFrame (walkCol_ro cfg j _ (initWalk s))
  · rfl

theorem singletonChecks_frame (cfg : Cfg) (j row : Nat) (ib : ℚ × ℚ × ℚ × ℚ)
    (s : St) : scanFrame (singletonChecks cfg j row ib s) = scanFrame s := by
  unfold singletonChecks
  split
  · rfl
  · split
    · rfl
    · split <;> rfl

theorem scanColSingleton_frame (cfg : Cfg) (j : Nat) (s : St) :
    scanFrame (scanColSingleton cfg j s) = scanFrame s := by
  unfold scanColSingleton
  split
  · exact singletonChecks_frame _ _ _ _ _
  · rfl

theorem scanCol_frame (cfg : Cfg) (j : Nat) (s : St) :
    scanFrame (scanCol cfg j s) = scanFrame s := by
  unfold scanCol
  split
  · split
    · exact scanCol23_frame cfg j s
    · split
      · exact scanColSingleton_frame cfg j s
      · rfl
  · rfl

theorem scanColumns_frame (cfg : Cfg) (l : List Nat) (s : St) :
    scanFrame (scanColumns cfg l s) = scanFrame s := by
  induction l generalizing s with
  | nil => rfl
  | cons j rest ih =>
      unfold scanColumns
      split
      · rfl
      · exact (ih _).trans (scanCol_frame cfg j s)

theorem scanFrame_clo {s t : St} (h : scanFrame s = scanFrame t) : s.clo = t.clo :=
  congrArg (fun p => p.1) h

theorem scanFrame_cup {s t : St} (h : scanFrame s = scanFrame t) : s.cup = t.cup :=
  congrArg (fun p => p.2.1) h

theorem elimStep_clo (cfg : Cfg) (j : Nat) (s : St) :
    (elimStep cfg j s).1.clo = s.clo := rfl

theorem elimStep_cup (cfg : Cfg) (j : Nat) (s : St) :
    (elimStep cfg j s).1.cup = s.cup := rfl

theorem elimLoop_clo (cfg : Cfg) (l : List Nat) :
    ∀ (s : St) (acc : List ActionRec), (elimLoop cfg l s acc).1.clo = s.clo := by
  induction l with
  | nil => intro s acc; rfl
  | cons j rest ih =>
      intro s acc
      unfold elimLoop
      split
      · split
        · rfl
        · exact (ih _ _).trans (elimStep_clo cfg j s)
      · exact ih _ _

theorem elimLoop_cup (cfg : Cfg) (l : List Nat) :
    ∀ (s : St) (acc : List ActionRec), (elimLoop cfg l s acc).1.cup = s.cup := by
  induction l with
  | nil => intro s acc; rfl
  | cons j rest ih =>
      intro s acc
      unfold elimLoop
      split
      · split
        · rfl
        · exact (ih _ _).trans (elimStep_cup cfg j s)
      · exact ih _ _

end CoinImpliedFree

namespace CoinImpliedFree

attribute [local semireducible] Rat.mul Rat.inv Rat.add Rat.sub

theorem walkCol_of_broke (cfg : Cfg) (j : Nat) (l : List (Nat × ℚ)) (s : St)
    (h : s.broke = true) : walkCol cfg j l s = s := by
  cases l with
  | nil => rfl
  | cons e rest => unfold walkCol; simp [h]

theorem walkCol_cons (cfg : Cfg) (j : Nat) (e : Nat × ℚ)
    (rest : List (Nat × ℚ)) (s : St) :
    walkCol cfg j (e :: rest) s =
      if s.broke = true then s else walkCol cfg j rest (walkStep cfg j e s) := rfl

theorem walkCol_append (cfg : Cfg) (j : Nat) (a b : List (Nat × ℚ)) (s : St) :
    walkCol cfg j (a ++ b) s = walkCol cfg j b (walkCol cfg j a s) := by
  induction a generalizing s with
  | nil => rfl
  | cons e rest ih =>
      rw [List.cons_append, walkCol_cons, walkCol_cons]
      by_cases h : s.broke = true
      · rw [if_pos h, if_pos h, walkCol_of_broke cfg j b s h]
      · rw [if_neg h, if_neg h, ih]

theorem scanColumns_of_aborted (cfg : Cfg) (l : List Nat) (s : St)
    (h : s.aborted = true) : scanColumns cfg l s = s := by
  cases l with
  | nil => rfl
  | cons j rest => unfold scanColumns; simp [h]

theorem scanColumns_cons (cfg : Cfg) (j : Nat) (rest : List Nat) (s : St) :
    scanColumns cfg (j :: rest) s =
      if s.aborted = true then s else scanColumns cfg rest (scanCol cfg j s) := rfl

theorem scanColumns_append (cfg : Cfg) (a b : List Nat) (s : St) :
    scanColumns cfg (a ++ b) s = scanColumns cfg b (scanColumns cfg a s) := by
  induction a generalizing s with
  | nil => rfl
  | cons j rest ih =>
      rw [List.cons_append, scanColumns_cons, scanColumns_cons]
      by_cases h : s.aborted = true
      · rw [if_pos h, if_pos h, scanColumns_of_aborted cfg b s h]
      · rw [if_neg h, if_neg h, ih]

theorem elimLoop_cons (cfg : Cfg) (j : Nat) (rest : List Nat) (s : St)
    (acc : List ActionRec) :
    elimLoop cfg (j :: rest) s acc =
      if hincol s j = 1 ∧ 0 ≤ s.impliedFree j then
        if rowNzSum s (s.rowEntries ((s.colEntries j).headD (0, 0)).1) =
            hinrow s ((s.colEntries j).headD (0, 0)).1 then
          (s, acc, some ((s.colEntries j).headD (0, 0)).1)
        else
          elimLoop cfg rest (elimStep cfg j s).1 (acc ++ [(elimStep cfg j s).2])
      else elimLoop cfg rest s acc := rfl

theorem elimLoop_append (cfg : Cfg) (a b : List Nat) :
    ∀ (s : St) (acc : List ActionRec),
      elimLoop cfg (a ++ b) s acc =
        (match elimLoop cfg a s acc with
         | (s1, acc1, none) => elimLoop cfg b s1 acc1
         | (s1, acc1, some r) => (s1, acc1, some r)) := by
  induction a with
  | nil => intro s acc; rfl
  | cons j rest ih =>
      intro s acc
      rw [List.cons_append, elimLoop_cons, elimLoop_cons]
      by_cases h1 : hincol s j = 1 ∧ 0 ≤ s.impliedFree j
      · rw [if_pos h1, if_pos h1]
        by_cases h2 : rowNzSum s (s.rowEntries ((s.colEntries j).headD (0, 0)).1) =
            hinrow s ((s.colEntries j).headD (0, 0)).1
        · rw [if_pos h2, if_pos h2]
        · rw [if_neg h2, if_neg h2, ih _ _]
      · rw [if_neg h1, if_neg h1, ih _ _]

theorem statusBit_or (x : Nat) : (x ||| 1).testBit 0 = true := by
  simp [Nat.testBit_lor]

theorem computeRow_status (cfg : Cfg) (r : Nat) (s : St)
    (h : s.status.testBit 0 = true) :
    (computeRow cfg r s).status.testBit 0 = true := by
  unfold computeRow
  cases rowClass cfg s r
  · exact h
  · exact statusBit_or s.status
  · exact statusBit_or s.status
  · exact h

theorem computeRow_log (cfg : Cfg) (r : Nat) (s : St) (x : Nat × ℚ × ℚ)
    (h : x ∈ s.log) : x ∈ (computeRow cfg r s).log := by
  unfold computeRow
  cases rowClass cfg s r
  · exact h
  · exact List.mem_append_left _ h
  · exact List.mem_append_left _ h
  · exact h

theorem walkStepGo_statLog (j : Nat) (e : Nat × ℚ) (s : St) :
    (walkStepGo j e s).status = s.status ∧ (walkStepGo j e s).log = s.log := by
  unfold walkStepGo
  split
  · exact ⟨rfl, rfl⟩
  · split
    · exact ⟨rfl, rfl⟩
    · split <;> exact ⟨rfl, rfl⟩

theorem walkStep_status (cfg : Cfg) (j : Nat) (e : Nat × ℚ) (s : St)
    (h : s.status.testBit 0 = true) :
    (walkStep cfg j e s).status.testBit 0 = true := by
  unfold walkStep
  split
  · rw [(walkStepGo_statLog j e _).1]
    split
    · exact computeRow_status cfg e.1 s h
    · exact h
  · exact h

theorem walkStep_log (cfg : Cfg) (j : Nat) (e : Nat × ℚ) (s : St)
    (x : Nat × ℚ × ℚ) (h : x ∈ s.log) : x ∈ (walkStep cfg j e s).log := by
  unfold walkStep
  split
  · rw [(walkStepGo_statLog j e _).2]
    split
    · exact computeRow_log cfg e.1 s x h
    · exact h
  · exact h

theorem walkCol_status (cfg : Cfg) (j : Nat) (l : List (Nat × ℚ)) (s : St)
    (h : s.status.testBit 0 = true) :
    (walkCol cfg j l s).status.testBit 0 = true := by
  induction l generalizing s with
  | nil => exact h
  | cons e rest ih =>
      unfold walkCol
      split
      · exact h
      · exact ih _ (walkStep_status cfg j e s h)

theorem walkCol_log (cfg : Cfg) (j : Nat) (l : List (Nat × ℚ)) (s : St)
    (x : Nat × ℚ × ℚ) (h : x ∈ s.log) : x ∈ (walkCol cfg j l s).log := by
  induction l generalizing s with
  | nil => exact h
  | cons e rest ih =>
      unfold walkCol
      split
      · exact h
      · exact ih _ (walkStep_log cfg j e s x h)

theorem scanAccept_statLog (cfg : Cfg) (j : Nat) (entries : List (Nat × ℚ))
    (th : ℚ) (w : St) :
    (scanAccept cfg j entries th w).status = w.status ∧
      (scanAccept cfg j entries th w).log = w.log := by
  unfold scanAccept
  cases (select cfg w entries th).1 <;> exact ⟨rfl, rfl⟩

theorem scanCol23_status (cfg : Cfg) (j : Nat) (s : St)
    (h : s.status.testBit 0 = true) :
    (scanCol23 cfg j s).status.testBit 0 = true := by
  unfold scanCol23
  split
  · split
    · rw [(scanAccept_statLog cfg j _ _ _).1]
      exact walkCol_status cfg j _ (initWalk s) h
    · exact walkCol_status cfg j _ (initWalk s) h
  · exact h

theorem scanCol23_log (cfg : Cfg) (j : Nat) (s : St) (x : Nat × ℚ × ℚ)
    (h : x ∈ s.log) : x ∈ (scanCol23 cfg j s).log := by
  unfold scanCol23
  split
  · split
    · rw [(scanAccept_statLog cfg j _ _ _).2]
      exact walkCol_log cfg j _ (initWalk s) x h
    · exact walkCol_log cfg j _ (initWalk s) x h
  · exact h

theorem singletonChecks_status (cfg : Cfg) (j row : Nat) (ib : ℚ × ℚ × ℚ × ℚ)
    (s : St) (h : s.status.testBit 0 = true) :
    (singletonChecks cfg j row ib s).status.testBit 0 = true := by
  unfold singletonChecks
  split
  · exact statusBit_or s.status
  · split
    · exact statusBit_or s.status
    · split
      · exact h
      · exact h

theorem singletonChecks_log (cfg : Cfg) (j row : Nat) (ib : ℚ × ℚ × ℚ × ℚ)
    (s : St) (x : Nat × ℚ × ℚ) (h : x ∈ s.log) :
    x ∈ (singletonChecks cfg j row ib s).log := by
  unfold singletonChecks
  split
  · exact List.mem_append_left _ h
  · split
    · exact List.mem_append_left _ h
    · split
      · exact h
      · exact h

theorem scanColSingleton_status (cfg : Cfg) (j : Nat) (s : St)
    (h : s.status.testBit 0 = true) :
    (scanColSingleton cfg j s).status.testBit 0 = true := by
  unfold scanColSingleton
  split
  · exact singletonChecks_status cfg j _ _ s h
  · exact h

theorem scanColSingleton_log (cfg : Cfg) (j : Nat) (s : St) (x : Nat × ℚ × ℚ)
    (h : x ∈ s.log) : x ∈ (scanColSingleton cfg j s).log := by
  unfold scanColSingleton
  split
  · exact singletonChecks_log cfg j _ _ s x h
  · exact h

theorem scanCol_status (cfg : Cfg) (j : Nat) (s : St)
    (h : s.status.testBit 0 = true) :
    (scanCol cfg j s).status.testBit 0 = true := by
  unfold scanCol
  split
  · split
    · exact scanCol23_status cfg j s h
    · split
      · exact scanColSingleton_status cfg j s h
      · exact h
  · exact h

theorem scanCol_log (cfg : Cfg) (j : Nat) (s : St) (x : Nat × ℚ × ℚ)
    (h : x ∈ s.log) : x ∈ (scanCol cfg j s).log := by
  unfold scanCol
  split
  · split
    · exact scanCol23_log cfg j s x h
    · split
      · exact scanColSingleton_log cfg j s x h
      · exact h
  · exact h

theorem scanColumns_status (cfg : Cfg) (l : List Nat) (s : St)
    (h : s.status.testBit 0 = true) :
    (scanColumns cfg l s).status.testBit 0 = true := by
  induction l generalizing s with
  | nil => exact h
  | cons j rest ih =>
      unfold scanColumns
      split
      · exact h
      · exact ih _ (scanCol_status cfg j s h)

theorem scanColumns_log (cfg : Cfg) (l : List Nat) (s : St) (x : Nat × ℚ × ℚ)
    (h : x ∈ s.log) : x ∈ (scanColumns cfg l s).log := by
  induction l generalizing s with
  | nil => exact h
  | cons j rest ih =>
      unfold scanColumns
      split
      · exact h
      · exact ih _ (scanCol_log cfg j s x h)

end CoinImpliedFree

namespace CoinImpliedFree

attribute [local semireducible] Rat.mul Rat.inv Rat.add Rat.sub

theorem selectGo_cons (cfg : Cfg) (s : St) (th : ℚ) (e : Nat × ℚ)
    (rest : List (Nat × ℚ)) (acc : Option Nat × Nat) :
    selectGo cfg s th (e :: rest) acc =
      selectGo cfg s th rest
        (if |s.rlo e.1 - s.rup e.1| < cfg.tol ∧ th < |e.2| ∧ hinrow s e.1 < acc.2
         then (some e.1, hinrow s e.1) else acc) := rfl

theorem selectGo_snd_le (cfg : Cfg) (s : St) (th : ℚ) :
    ∀ (l : List (Nat × ℚ)) (acc : Option Nat × Nat),
      (selectGo cfg s th l acc).2 ≤ acc.2 := by
  intro l
  induction l with
  | nil => intro acc; exact le_refl _
  | cons e rest ih =>
      intro acc
      rw [selectGo_cons]
      refine le_trans (ih _) ?_
      split
      next h => exact le_of_lt h.2.2
      next _ => exact le_refl _

theorem selectGo_min (cfg : Cfg) (s : St) (th : ℚ) :
    ∀ (l : List (Nat × ℚ)) (acc : Option Nat × Nat) (e : Nat × ℚ), e ∈ l →
      |s.rlo e.1 - s.rup e.1| < cfg.tol → th < |e.2| →
      (selectGo cfg s th l acc).2 ≤ hinrow s e.1 := by
  intro l
  induction l with
  | nil => intro acc e he; exact absurd he (List.not_mem_nil e)
  | cons f rest ih =>
      intro acc e he h1 h2
      rw [selectGo_cons]
      rcases List.mem_cons.mp he with rfl | hmem
      · by_cases hc : |s.rlo e.1 - s.rup e.1| < cfg.tol ∧ th < |e.2| ∧ hinrow s e.1 < acc.2
        · rw [if_pos hc]
          exact selectGo_snd_le cfg s th rest _
        · rw [if_neg hc]
          refine le_trans (selectGo_snd_le cfg s th rest acc) ?_
          by_contra hlt
          push_neg at hlt
          exact hc ⟨h1, h2, hlt⟩
      · exact ih _ e hmem h1 h2

theorem selectGo_some (cfg : Cfg) (s : St) (th : ℚ) :
    ∀ (l : List (Nat × ℚ)) (acc : Option Nat × Nat) (k m : Nat),
      selectGo cfg s th l acc = (some k, m) →
      acc = (some k, m) ∨
        ∃ c, (k, c) ∈ l ∧ |s.rlo k - s.rup k| < cfg.tol ∧ th < |c| ∧
          hinrow s k = m := by
  intro l
  induction l with
  | nil => intro acc k m h; exact Or.inl h
  | cons f rest ih =>
      intro acc k m h
      rw [selectGo_cons] at h
      rcases ih _ k m h with hacc | ⟨c, hc, h1, h2, h3⟩
      · by_cases hcond : |s.rlo f.1 - s.rup f.1| < cfg.tol ∧ th < |f.2| ∧
            hinrow s f.1 < acc.2
        · rw [if_pos hcond] at hacc
          rw [Prod.mk.injEq] at hacc
          obtain ⟨hfk, hm⟩ := hacc
          have hf1 : f.1 = k := Option.some.inj hfk
          refine Or.inr ⟨f.2, ?_, ?_, hcond.2.1, ?_⟩
          · have hfe : (k, f.2) = f := by rw [← hf1]
            rw [hfe]
            exact List.mem_cons_self f rest
          · rw [← hf1]
            exact hcond.1
          · rw [← hf1]
            exact hm
        · rw [if_neg hcond] at hacc
          exact Or.inl hacc
      · exact Or.inr ⟨c, List.mem_cons_of_mem f hc, h1, h2, h3⟩

theorem selectGo_isSome (cfg : Cfg) (s : St) (th : ℚ) :
    ∀ (l : List (Nat × ℚ)) (acc : Option Nat × Nat),
      ((∃ e ∈ l, |s.rlo e.1 - s.rup e.1| < cfg.tol ∧ th < |e.2| ∧
          hinrow s e.1 < acc.2) ∨ acc.1.isSome = true) →
      (selectGo cfg s th l acc).1.isSome = true := by
  intro l
  induction l with
  | nil =>
      intro acc h
      rcases h with ⟨e, he, _⟩ | h
      · exact absurd he (List.not_mem_nil e)
      · exact h
  | cons f rest ih =>
      intro acc h
      rw [selectGo_cons]
      by_cases hcond : |s.rlo f.1 - s.rup f.1| < cfg.tol ∧ th < |f.2| ∧
          hinrow s f.1 < acc.2
      · rw [if_pos hcond]
        exact ih _ (Or.inr rfl)
      · rw [if_neg hcond]
        apply ih
        rcases h with ⟨e, he, h1, h2, h3⟩ | hs
        · rcases List.mem_cons.mp he with rfl | hmem
          · exact absurd ⟨h1, h2, h3⟩ hcond
          · exact Or.inl ⟨e, hmem, h1, h2, h3⟩
        · exact Or.inr hs

theorem walkStep_giveup (cfg : Cfg) (j : Nat) (e : Nat × ℚ) (s : St)
    (hb : s.broke = false) (hz : ZTOLDP < |e.2|) (ht : s.tag e.1 = -3) :
    walkStep cfg j e s =
      { s with low := -COIN_DBL_MAX, high := COIN_DBL_MAX, broke := true } := by
  unfold walkStep
  rw [if_pos hz]
  have h1 : (if s.tag e.1 = -1 then computeRow cfg e.1 s else s) = s := by
    rw [if_neg]
    rw [ht]
    decide
  rw [h1]
  unfold walkStepGo
  rw [if_neg (by rw [hb]; exact Bool.false_ne_true), if_neg (by rw [ht]; decide),
    if_pos ht]

theorem walkCol_giveup (cfg : Cfg) (j : Nat) (l1 : List (Nat × ℚ))
    (e : Nat × ℚ) (l2 : List (Nat × ℚ)) (s : St)
    (hb : (walkCol cfg j l1 s).broke = false)
    (hz : ZTOLDP < |e.2|)
    (ht : (walkCol cfg j l1 s).tag e.1 = -3) :
    walkCol cfg j (l1 ++ e :: l2) s =
      { walkCol cfg j l1 s with
          low := -COIN_DBL_MAX, high := COIN_DBL_MAX, broke := true } := by
  rw [walkCol_append, walkCol_cons, if_neg (by rw [hb]; exact Bool.false_ne_true),
    walkStep_giveup cfg j e _ hb hz ht]
  exact walkCol_of_broke cfg j l2 _ rfl

end CoinImpliedFree

namespace CoinImpliedFree

attribute [local semireducible] Rat.mul Rat.inv Rat.add Rat.sub

theorem elimCostsGo_cons (j : Nat) (a cj : ℚ) (e : Nat × ℚ)
    (rest : List (Nat × ℚ)) (cst : Nat → ℚ) :
    elimCostsGo j a cj (e :: rest) cst =
      elimCostsGo j a cj rest
        (if e.1 ≠ j then Function.update cst e.1 (cst e.1 + cj * (-e.2 / a))
         else cst) := rfl

theorem elimCostsGo_at_j (j : Nat) (a cj : ℚ) :
    ∀ (l : List (Nat × ℚ)) (cst : Nat → ℚ), elimCostsGo j a cj l cst j = cst j := by
  intro l
  induction l with
  | nil => intro cst; rfl
  | cons e rest ih =>
      intro cst
      rw [elimCostsGo_cons, ih]
      split
      next h => exact Function.update_noteq (fun hj => h hj.symm) _ cst
      next _ => rfl

theorem elimCostsGo_not_mem (j : Nat) (a cj : ℚ) :
    ∀ (l : List (Nat × ℚ)) (cst : Nat → ℚ) (c : Nat),
      c ∉ l.map Prod.fst → elimCostsGo j a cj l cst c = cst c := by
  intro l
  induction l with
  | nil => intro cst c _; rfl
  | cons e rest ih =>
      intro cst c hc
      rw [List.map_cons] at hc
      rw [elimCostsGo_cons, ih _ c (fun hm => hc (List.mem_cons_of_mem _ hm))]
      split
      next _ =>
        exact Function.update_noteq
          (fun hce => hc (by rw [hce]; exact List.mem_cons_self _ _)) _ cst
      next _ => rfl

theorem elimCostsGo_mem (j : Nat) (a cj : ℚ) :
    ∀ (l : List (Nat × ℚ)) (cst : Nat → ℚ) (k : Nat) (v : ℚ),
      (l.map Prod.fst).Nodup → (k, v) ∈ l → k ≠ j →
      elimCostsGo j a cj l cst k = cst k + cj * (-v / a) := by
  intro l
  induction l with
  | nil => intro cst k v _ hm; exact absurd hm (List.not_mem_nil _)
  | cons e rest ih =>
      intro cst k v hnd hm hkj
      rw [List.map_cons, List.nodup_cons] at hnd
      rw [elimCostsGo_cons]
      rcases List.mem_cons.mp hm with heq | hmem
      · have hek : e.1 = k := by rw [← heq]
        have hev : e.2 = v := by rw [← heq]
        rw [if_pos (by rw [hek]; exact hkj)]
        rw [elimCostsGo_not_mem j a cj rest _ k (by rw [← hek]; exact hnd.1)]
        rw [hek, hev, Function.update_same]
      · have hek : e.1 ≠ k := by
          intro he
          exact hnd.1 (he ▸ List.mem_map.mpr ⟨(k, v), hmem, rfl⟩)
        have hcst : (if e.1 ≠ j then
            Function.update cst e.1 (cst e.1 + cj * (-e.2 / a)) else cst) k = cst k := by
          split
          next _ => exact Function.update_noteq (fun h => hek h.symm) _ cst
          next _ => rfl
        rw [ih _ k v hnd.2 hmem hkj, hcst]

theorem update_mul_comp (f : Nat → ℚ) (i : Nat) (b : ℚ) (x : Nat → ℚ) :
    (fun c => Function.update f i b c * x c) =
      Function.update (fun c => f c * x c) i (b * x i) := by
  funext c
  by_cases h : c = i
  · subst h
    rw [Function.update_same, Function.update_same]
  · rw [Function.update_noteq h, Function.update_noteq h]

theorem sum_update_range (f : Nat → ℚ) (x : Nat → ℚ) (i n : Nat) (hi : i < n)
    (b : ℚ) :
    ∑ c in Finset.range n, Function.update f i b c * x c
      = (∑ c in Finset.range n, f c * x c) + (b - f i) * x i := by
  have hmem : i ∈ Finset.range n := Finset.mem_range.mpr hi
  have h1 : ∑ c in Finset.range n, Function.update f i b c * x c
      = ∑ c in Finset.range n,
          Function.update (fun c => f c * x c) i (b * x i) c := by
    rw [update_mul_comp]
  rw [h1, Finset.sum_update_of_mem hmem,
    Finset.sum_eq_sum_diff_singleton_add hmem (fun c => f c * x c)]
  ring

theorem elimCostsGo_sum (j : Nat) (a cj : ℚ) (x : Nat → ℚ) (n : Nat) :
    ∀ (l : List (Nat × ℚ)) (cst : Nat → ℚ), (∀ e ∈ l, e.1 < n) →
      ∑ c in Finset.range n, elimCostsGo j a cj l cst c * x c
        = (∑ c in Finset.range n, cst c * x c)
          + ((l.filter (fun e => e.1 != j)).map
              (fun e => cj * (-e.2 / a) * x e.1)).sum := by
  intro l
  induction l with
  | nil => intro cst _; rw [List.filter_nil, List.map_nil, List.sum_nil, add_zero]; rfl
  | cons e rest ih =>
      intro cst hn
      rw [elimCostsGo_cons]
      by_cases hej : e.1 ≠ j
      · rw [if_pos hej,
          ih _ (fun f hf => hn f (List.mem_cons_of_mem _ hf)),
          sum_update_range cst x e.1 n (hn e (List.mem_cons_self e rest)) _,
          List.filter_cons_of_pos (by simpa using hej), List.map_cons,
          List.sum_cons]
        ring
      · rw [if_neg hej,
          ih _ (fun f hf => hn f (List.mem_cons_of_mem _ hf)),
          List.filter_cons_of_neg (by simpa using hej)]

theorem sum_split_j (x : Nat → ℚ) :
    ∀ (l : List (Nat × ℚ)) (j : Nat) (a : ℚ),
      (l.map Prod.fst).Nodup → (j, a) ∈ l →
      ((l.filter (fun e => e.1 != j)).map (fun e => e.2 * x e.1)).sum
        = (l.map (fun e => e.2 * x e.1)).sum - a * x j := by
  intro l
  induction l with
  | nil => intro j a _ hm; exact absurd hm (List.not_mem_nil _)
  | cons e rest ih =>
      intro j a hnd hm
      rw [List.map_cons, List.nodup_cons] at hnd
      rcases List.mem_cons.mp hm with heq | hmem
      · have hej : e.1 = j := by rw [← heq]
        have hea : e.2 = a := by rw [← heq]
        rw [List.filter_cons_of_neg (by simp [hej]),
          List.filter_eq_self.mpr ?_, List.map_cons, List.sum_cons, hej, hea]
        · ring
        · intro f hf
          have : f.1 ≠ j := by
            intro hfe
            exact hnd.1 ((hej.trans hfe.symm) ▸ List.mem_map.mpr ⟨f, hf, rfl⟩)
          simpa using this
      · have hej : e.1 ≠ j := by
          intro he
          exact hnd.1 (he ▸ List.mem_map.mpr ⟨(j, a), hmem, rfl⟩)
        rw [List.filter_cons_of_pos (by simpa using hej), List.map_cons,
          List.sum_cons, ih j a hnd.2 hmem, List.map_cons, List.sum_cons]
        ring

theorem sum_map_scale (cj a : ℚ) (x : Nat → ℚ) :
    ∀ (l : List (Nat × ℚ)),
      ((l.map (fun e => cj * (-e.2 / a) * x e.1)).sum)
        = (-cj / a) * (l.map (fun e => e.2 * x e.1)).sum := by
  intro l
  induction l with
  | nil => simp
  | cons e rest ih =>
      rw [List.map_cons, List.sum_cons, ih, List.map_cons, List.sum_cons]
      ring

end CoinImpliedFree

namespace CoinImpliedFree

attribute [local semireducible] Rat.mul Rat.inv Rat.add Rat.sub

/-- Claim C2, counterexample: for the concrete row `x0 - 10^13 x1 = 0` with
`x0 ∈ [0, 10^20]` (infinite upper bound, `infiniteUpper = 1`) and
`x1 ∈ [10^19, 2*10^19]` (`maximumUp = -10^32`), the code's classification
(`maxUpx = -10^32 + 1e31 < rlo - tol`) reports the row infeasible, while the
count-gated classification of the spec (an infinite up-count means the
maximum activity is unbounded) yields a cached summary: the synthetic
`1e31` magnitude does decide feasibility. -/
theorem claim_C2_counterexample :
    rowSums st2 (st2.rowEntries 0) = (1, 0, -(10:ℚ)^32, -2 * 10^32) ∧
    rowClass cfg2 st2 0 = RowClass.infeasibleUp ∧
    classifyRowSpec (st2.rlo 0) (st2.rup 0) cfg2.tol 1 0 (-(10:ℚ)^32)
      (-2 * 10^32) = RowClass.summary := by
  decide

/-- Claim C2 (amended): the row-activity classification is computed from
`maximumUp + infiniteUpper*1e31` and `maximumDown - infiniteLower*1e31`
directly, so the synthetic `1e31` magnitude does enter the decision; it
agrees with the count-gated decision of the spec whenever the finite running
sums are at most `10^30` in magnitude and the row bounds at most `1e20`
(with `0 ≤ tol ≤ 1`). -/
theorem claim_C2 (rlo rup tol : ℚ) (iU iL : Nat) (mU mD : ℚ)
    (htol0 : 0 ≤ tol) (htol1 : tol ≤ 1)
    (hrlo : |rlo| ≤ large) (hrup : |rup| ≤ large)
    (hmU : |mU| ≤ 10 ^ 30) (hmD : |mD| ≤ 10 ^ 30) :
    classifyRow rlo rup tol iU iL mU mD =
      classifyRowSpec rlo rup tol iU iL mU mD := by
  obtain ⟨hrlo1, hrlo2⟩ := abs_le.mp hrlo
  obtain ⟨hrup1, hrup2⟩ := abs_le.mp hrup
  obtain ⟨hmU1, hmU2⟩ := abs_le.mp hmU
  obtain ⟨hmD1, hmD2⟩ := abs_le.mp hmD
  rw [show large = 10 ^ 20 from rfl] at hrlo1 hrlo2 hrup1 hrup2
  unfold classifyRow classifyRowSpec
  rcases Nat.eq_zero_or_pos iU with hiU | hiU
  · rcases Nat.eq_zero_or_pos iL with hiL | hiL
    · subst hiU; subst hiL
      simp only [Nat.cast_zero, zero_mul, add_zero, sub_zero,
        eq_self_iff_true, true_and]
    · subst hiU
      have hiL0 : iL ≠ 0 := Nat.pos_iff_ne_zero.mp hiL
      have hgeL : (1 : ℚ) ≤ (iL : ℚ) := by exact_mod_cast hiL
      have hB1 : mD - (iL : ℚ) * bigM < rlo - tol := by
        rw [show bigM = 10 ^ 31 from rfl]
        nlinarith
      have hB2 : ¬ (rup + tol < mD - (iL : ℚ) * bigM) := by
        rw [show bigM = 10 ^ 31 from rfl]
        push_neg
        nlinarith
      simp only [Nat.cast_zero, zero_mul, add_zero, sub_zero,
        eq_self_iff_true, true_and]
      rw [if_neg (show ¬ (mU ≤ rup + tol ∧ rlo - tol ≤ mD - (iL : ℚ) * bigM)
            from fun hc => absurd hc.2 (not_le.mpr hB1)),
        if_neg (show ¬ (mU ≤ rup + tol ∧ iL = 0 ∧ rlo - tol ≤ mD)
            from fun hc => hiL0 hc.2.1)]
      by_cases hc2 : mU < rlo - tol
      · rw [if_pos hc2, if_pos hc2]
      · rw [if_neg hc2, if_neg hc2, if_neg hB2,
          if_neg (show ¬ (iL = 0 ∧ rup + tol < mD) from fun hc => hiL0 hc.1)]
  · have hiU0 : iU ≠ 0 := Nat.pos_iff_ne_zero.mp hiU
    have hgeU : (1 : ℚ) ≤ (iU : ℚ) := by exact_mod_cast hiU
    have h9 : rup + tol < mU + (iU : ℚ) * bigM := by
      rw [show bigM = 10 ^ 31 from rfl]
      nlinarith
    have h10 : ¬ (mU + (iU : ℚ) * bigM < rlo - tol) := by
      rw [show bigM = 10 ^ 31 from rfl]
      push_neg
      nlinarith
    rcases Nat.eq_zero_or_pos iL with hiL | hiL
    · subst hiL
      simp only [Nat.cast_zero, zero_mul, add_zero, sub_zero,
        eq_self_iff_true, true_and]
      rw [if_neg (show ¬ (mU + (iU : ℚ) * bigM ≤ rup + tol ∧ rlo - tol ≤ mD)
            from fun hc => absurd hc.1 (not_le.mpr h9)),
        if_neg (show ¬ ((iU = 0 ∧ mU ≤ rup + tol) ∧ rlo - tol ≤ mD)
            from fun hc => hiU0 hc.1.1),
        if_neg h10,
        if_neg (show ¬ (iU = 0 ∧ mU < rlo - tol) from fun hc => hiU0 hc.1)]
    · have hiL0 : iL ≠ 0 := Nat.pos_iff_ne_zero.mp hiL
      have hgeL : (1 : ℚ) ≤ (iL : ℚ) := by exact_mod_cast hiL
      have hB2 : ¬ (rup + tol < mD - (iL : ℚ) * bigM) := by
        rw [show bigM = 10 ^ 31 from rfl]
        push_neg
        nlinarith
      rw [if_neg (show ¬ (mU + (iU : ℚ) * bigM ≤ rup + tol ∧
              rlo - tol ≤ mD - (iL : ℚ) * bigM)
            from fun hc => absurd hc.1 (not_le.mpr h9)),
        if_neg (show ¬ ((iU = 0 ∧ mU ≤ rup + tol) ∧ iL = 0 ∧ rlo - tol ≤ mD)
            from fun hc => hiU0 hc.1.1),
        if_neg h10,
        if_neg (show ¬ (iU = 0 ∧ mU < rlo - tol) from fun hc => hiU0 hc.1),
        if_neg hB2,
        if_neg (show ¬ (iL = 0 ∧ rup + tol < mD) from fun hc => hiL0 hc.1)]

/-- Claim C2, witness for the amended equivalence at a concrete summary. -/
theorem claim_C2_witness :
    classifyRow 5 5 (1 / 10 ^ 7) 0 0 10 0 =
      classifyRowSpec 5 5 (1 / 10 ^ 7) 0 0 10 0 :=
  claim_C2 5 5 (1 / 10 ^ 7) 0 0 10 0 (by norm_num) (by norm_num)
    (by rw [show large = 10 ^ 20 from rfl]; rw [abs_le]; constructor <;> norm_num)
    (by rw [show large = 10 ^ 20 from rfl]; rw [abs_le]; constructor <;> norm_num)
    (by rw [abs_le]; constructor <;> norm_num)
    (by rw [abs_le]; constructor <;> norm_num)

/-- Claim C4: eliminating column `j` through an equality row with
right-hand side `rhs` and coefficient `a` sets `cost[j]` to zero, gives
every other column `k` of the row `cost[k] + costj * (-coeff_k / a)`, and
with the bias increment `costj * rhs / a` the new objective plus bias equals
the original objective on every assignment satisfying the row equality. -/
theorem claim_C4 (entries : List (Nat × ℚ)) (j n : Nat) (a cj bias rhs : ℚ)
    (cost x : Nat → ℚ)
    (hmem : (j, a) ∈ entries)
    (hnd : (entries.map Prod.fst).Nodup)
    (ha : a ≠ 0)
    (hcj : cj = cost j)
    (hrange : ∀ e ∈ entries, e.1 < n)
    (hsat : (entries.map (fun e => e.2 * x e.1)).sum = rhs) :
    elimCosts entries j a cj cost j = 0 ∧
    (∀ e ∈ entries, e.1 ≠ j →
      elimCosts entries j a cj cost e.1 = cost e.1 + cj * (-e.2 / a)) ∧
    (∑ c in Finset.range n, elimCosts entries j a cj cost c * x c)
        + (bias + cj * rhs / a)
      = (∑ c in Finset.range n, cost c * x c) + bias := by
  refine ⟨Function.update_same j 0 _, ?_, ?_⟩
  · intro e he hej
    unfold elimCosts
    rw [Function.update_noteq hej]
    exact elimCostsGo_mem j a cj entries cost e.1 e.2 hnd
      (by rw [show ((e.1, e.2) : Nat × ℚ) = e from rfl]; exact he) hej
  · have hjn : j < n := hrange (j, a) hmem
    unfold elimCosts
    rw [sum_update_range _ x j n hjn 0, elimCostsGo_at_j,
      elimCostsGo_sum j a cj x n entries cost hrange,
      sum_map_scale cj a x, sum_split_j x entries j a hnd hmem, hsat, hcj]
    field_simp
    ring

/-- Claim C4, witness: the row `2 x0 + 3 x1 = 5` at the assignment
`x0 = x1 = 1`, cost vector `(5, 7)`, bias `1`. -/
theorem claim_C4_witness :
    elimCosts [(0, 2), (1, 3)] 0 2 5 (fun c => if c = 0 then 5 else 7) 0 = 0 ∧
    (∀ e ∈ [((0 : Nat), (2 : ℚ)), (1, 3)], e.1 ≠ 0 →
      elimCosts [(0, 2), (1, 3)] 0 2 5 (fun c => if c = 0 then 5 else 7) e.1
        = (fun c => if c = 0 then (5 : ℚ) else 7) e.1 + 5 * (-e.2 / 2)) ∧
    (∑ c in Finset.range 2,
        elimCosts [(0, 2), (1, 3)] 0 2 5 (fun c => if c = 0 then 5 else 7) c *
          (fun _ => (1 : ℚ)) c) + (1 + 5 * 5 / 2)
      = (∑ c in Finset.range 2,
          (fun c => if c = 0 then (5 : ℚ) else 7) c * (fun _ => (1 : ℚ)) c) + 1 :=
  claim_C4 [(0, 2), (1, 3)] 0 2 2 5 1 5 (fun c => if c = 0 then 5 else 7)
    (fun _ => 1) (by decide) (by decide) (by norm_num) (by norm_num)
    (by decide) (by decide)

/-- Claim C6, counterexample: in the `cfg1`/`st1` instance the scan of
column `0` chooses row `0` as its defining row and tags it `-3`, yet the
later column `1` of the same pass selects the very same row `0` as its
defining row: the selection loop does not consult the give-up tag. -/
theorem claim_C6_counterexample :
    (scanColumns cfg1 [0] (initSt st1)).impliedFree 0 = 0 ∧
    (scanColumns cfg1 [0] (initSt st1)).tag 0 = -3 ∧
    (scanColumns cfg1 [0, 1] (initSt st1)).impliedFree 1 = 0 := by
  decide

/-- Claim C6 (amended): the give-up tag `-3` on a row does block the
singleton path: a singleton column whose row carries the tag is left
entirely unprocessed, and a later degree-2/3 column's bound derivation
through such a row aborts with the range reset to unbounded; but the defining-row
selection itself never consults the tag, so a later column whose acceptance
test still passes (e.g. a fully free column) can select a consumed row. -/
theorem claim_C6 (cfg : Cfg) (j : Nat) (s : St)
    (h : s.tag ((s.colEntries j).headD (0, 0)).1 = -3) :
    scanColSingleton cfg j s = s := by
  unfold scanColSingleton
  rw [if_neg]
  intro hc
  exact hc.2.2.2 h

/-- Claim C6, witness: a singleton column whose row is tagged `-3` is left
unprocessed. -/
theorem claim_C6_witness :
    scanColSingleton cfg8 0 { st8 with tag := fun _ => -3 } =
      { st8 with tag := fun _ => -3 } :=
  claim_C6 cfg8 0 { st8 with tag := fun _ => -3 } (by decide)

/-- Claim C8: a singleton column is processed (its `implied_free` entry can
only change) when the code's gate holds, and the gate implies the claimed
conditions: zero cost or an equality row (within any nonnegative tolerance,
since the code requires the stronger `rlo == rup`), more than one row
coefficient, coefficient magnitude above `ZTOLDP`, and no give-up tag. -/
theorem claim_C8 (cfg : Cfg) (j : Nat) (s : St) (htol : 0 ≤ cfg.tol)
    (hch : (scanColSingleton cfg j s).impliedFree j ≠ s.impliedFree j) :
    (s.cost j = 0 ∨
      |s.rlo ((s.colEntries j).headD (0, 0)).1 -
        s.rup ((s.colEntries j).headD (0, 0)).1| ≤ cfg.tol) ∧
    1 < hinrow s ((s.colEntries j).headD (0, 0)).1 ∧
    ZTOLDP < |((s.colEntries j).headD (0, 0)).2| ∧
    s.tag ((s.colEntries j).headD (0, 0)).1 ≠ -3 := by
  by_cases hg : (s.cost j = 0 ∨ s.rlo ((s.colEntries j).headD (0, 0)).1 =
      s.rup ((s.colEntries j).headD (0, 0)).1) ∧
      1 < hinrow s ((s.colEntries j).headD (0, 0)).1 ∧
      ZTOLDP < |((s.colEntries j).headD (0, 0)).2| ∧
      s.tag ((s.colEntries j).headD (0, 0)).1 ≠ -3
  · refine ⟨?_, hg.2.1, hg.2.2.1, hg.2.2.2⟩
    rcases hg.1 with h0 | heq
    · exact Or.inl h0
    · refine Or.inr ?_
      rw [heq, sub_self, abs_zero]
      exact htol
  · unfold scanColSingleton at hch
    rw [if_neg hg] at hch
    exact absurd rfl hch

/-- Claim C8, witness: the accepted singleton of the `cfg8`/`st8` instance
satisfies all gate conditions. -/
theorem claim_C8_witness :
    (st8.cost 0 = 0 ∨
      |st8.rlo ((st8.colEntries 0).headD (0, 0)).1 -
        st8.rup ((st8.colEntries 0).headD (0, 0)).1| ≤ cfg8.tol) ∧
    1 < hinrow st8 ((st8.colEntries 0).headD (0, 0)).1 ∧
    ZTOLDP < |((st8.colEntries 0).headD (0, 0)).2| ∧
    st8.tag ((st8.colEntries 0).headD (0, 0)).1 ≠ -3 :=
  claim_C8 cfg8 0 st8 (by decide) (by decide)

/-- Claim C9: the forward pass never writes the declared column-bound
arrays `clo`/`cup`: after `presolve` they are exactly the arrays of the
entry state. -/
theorem claim_C9 (cfg : Cfg) (look : List Nat) (s : St) :
    ((presolve cfg look s).1).clo = s.clo ∧
      ((presolve cfg look s).1).cup = s.cup := by
  unfold presolve
  constructor
  · calc (elimLoop cfg look (scanColumns cfg look (initSt s)) []).1.clo
        = (scanColumns cfg look (initSt s)).clo := elimLoop_clo cfg look _ _
      _ = (initSt s).clo := scanFrame_clo (scanColumns_frame cfg look (initSt s))
      _ = s.clo := rfl
  · calc (elimLoop cfg look (scanColumns cfg look (initSt s)) []).1.cup
        = (scanColumns cfg look (initSt s)).cup := elimLoop_cup cfg look _ _
      _ = (initSt s).cup := scanFrame_cup (scanColumns_frame cfg look (initSt s))
      _ = s.cup := rfl

/-- Claim C10: if the elimination loop reaches worklist position `j` with
state `s1` and no isolated row found so far, and `j` is an accepted
singleton whose row is isolated (`n == hinrow[row]`), the loop stops at
once: the whole loop returns `s1` unchanged with exactly the actions
recorded so far and this single isolated row, so no later worklist column
is eliminated in this invocation. -/
theorem claim_C10 (cfg : Cfg) (l1 l2 : List Nat) (j : Nat) (s : St)
    (acc : List ActionRec) (s1 : St) (acc1 : List ActionRec)
    (h1 : elimLoop cfg l1 s acc = (s1, acc1, none))
    (h2 : hincol s1 j = 1 ∧ 0 ≤ s1.impliedFree j)
    (h3 : rowNzSum s1 (s1.rowEntries ((s1.colEntries j).headD (0, 0)).1) =
          hinrow s1 ((s1.colEntries j).headD (0, 0)).1) :
    elimLoop cfg (l1 ++ j :: l2) s acc =
      (s1, acc1, some ((s1.colEntries j).headD (0, 0)).1) := by
  rw [elimLoop_append, h1]
  show elimLoop cfg (j :: l2) s1 acc1 = _
  rw [elimLoop_cons, if_pos h2, if_pos h3]

/-- Claim C10, witness: in the `cfg10`/`st10` instance the isolated row `0`
is detected at the first worklist column and the later accepted singleton
column `1` is left untouched. -/
theorem claim_C10_witness :
    elimLoop cfg10 [0, 1] st10 [] =
      (st10, [], some ((st10.colEntries 0).headD (0, 0)).1) :=
  claim_C10 cfg10 [] [1] 0 st10 [] st10 [] rfl (by decide) (by decide)

end CoinImpliedFree

namespace CoinImpliedFree

attribute [local semireducible] Rat.mul Rat.inv Rat.add Rat.sub

theorem scanFrame_rlo {s t : St} (h : scanFrame s = scanFrame t) : s.rlo = t.rlo :=
  congrArg (fun p => p.2.2.1) h

theorem scanFrame_rup {s t : St} (h : scanFrame s = scanFrame t) : s.rup = t.rup :=
  congrArg (fun p => p.2.2.2.1) h

/-- Claim C1, counterexample: in the `cfg1`/`st1` instance, row `0` carries
the give-up tag `-3` when column `1` is scanned (it was consumed by column
`0`), column `1`'s walk does reach it and break, and yet the pass marks
column `1` implied-free. -/
theorem claim_C1_counterexample :
    (scanColumns cfg1 [0] (initSt st1)).tag 0 = -3 ∧
    (scanColumns cfg1 [0] (initSt st1)).colEntries 1 = [(0, 1), (1, 1)] ∧
    ZTOLDP < |(1 : ℚ)| ∧
    (walkCol cfg1 1 ((scanColumns cfg1 [0] (initSt st1)).colEntries 1)
      (initWalk (scanColumns cfg1 [0] (initSt st1)))).broke = true ∧
    ((presolve cfg1 [0, 1] st1).1).impliedFree 1 = 0 := by
  decide

/-- Claim C1 (amended): when the walk of a degree-2/3 column meets a row
already flagged give-up (`-3`), the implied range is reset to unbounded and
the walk aborts, so the column can be marked implied-free only when both its
declared bounds are at the infinity sentinel (`clo ≤ -DBL_MAX` and
`DBL_MAX ≤ cup`); a column with any finite declared bound is never marked.
(When the abort comes instead from an infeasibility detected while
computing a row summary, `low`/`high` keep the values accumulated from the
earlier rows and the column may still be marked.) -/
theorem claim_C1 (cfg : Cfg) (j : Nat) (s : St) (l1 l2 : List (Nat × ℚ))
    (e : Nat × ℚ)
    (hsplit : s.colEntries j = l1 ++ e :: l2)
    (hb : (walkCol cfg j l1 (initWalk s)).broke = false)
    (hz : ZTOLDP < |e.2|)
    (ht : (walkCol cfg j l1 (initWalk s)).tag e.1 = -3)
    (hmark : (scanCol23 cfg j s).impliedFree j ≠ s.impliedFree j) :
    s.clo j ≤ -COIN_DBL_MAX ∧ COIN_DBL_MAX ≤ s.cup j := by
  have hW : walkCol cfg j (s.colEntries j) (initWalk s) =
      { walkCol cfg j l1 (initWalk s) with
          low := -COIN_DBL_MAX, high := COIN_DBL_MAX, broke := true } := by
    rw [hsplit]
    exact walkCol_giveup cfg j l1 e l2 (initWalk s) hb hz ht
  have hclo : (walkCol cfg j l1 (initWalk s)).clo = s.clo :=
    roPart_clo (walkCol_ro cfg j l1 (initWalk s))
  have hcup : (walkCol cfg j l1 (initWalk s)).cup = s.cup :=
    roPart_cup (walkCol_ro cfg j l1 (initWalk s))
  have hif : (walkCol cfg j (s.colEntries j) (initWalk s)).impliedFree =
      s.impliedFree :=
    roPart_impliedFree (walkCol_ro cfg j (s.colEntries j) (initWalk s))
  unfold scanCol23 at hmark
  by_cases hguard : (phaseA cfg s (s.colEntries j)).1 = true ∧
      (phaseA cfg s (s.colEntries j)).2.1 = false
  · rw [if_pos hguard] at hmark
    by_cases hacc : (walkCol cfg j (s.colEntries j) (initWalk s)).clo j ≤
        (walkCol cfg j (s.colEntries j) (initWalk s)).low ∧
        (walkCol cfg j (s.colEntries j) (initWalk s)).high ≤
        (walkCol cfg j (s.colEntries j) (initWalk s)).cup j
    · obtain ⟨h1, h2⟩ := hacc
      rw [hW] at h1 h2
      constructor
      · have h1a : (walkCol cfg j l1 (initWalk s)).clo j ≤ -COIN_DBL_MAX := h1
        rw [hclo] at h1a
        exact h1a
      · have h2a : COIN_DBL_MAX ≤ (walkCol cfg j l1 (initWalk s)).cup j := h2
        rw [hcup] at h2a
        exact h2a
    · rw [if_neg hacc] at hmark
      exact absurd (congrFun hif j) hmark
  · rw [if_neg hguard] at hmark
    exact absurd rfl hmark

/-- Claim C1, witness: the free column `1` of the `cfg1`/`st1` instance is
marked although its walk hit the consumed row `0`; the amended theorem
yields that its declared bounds are at the infinity sentinel. -/
theorem claim_C1_witness :
    (scanColumns cfg1 [0] (initSt st1)).clo 1 ≤ -COIN_DBL_MAX ∧
      COIN_DBL_MAX ≤ (scanColumns cfg1 [0] (initSt st1)).cup 1 :=
  claim_C1 cfg1 1 (scanColumns cfg1 [0] (initSt st1)) [] [(1, 1)] (0, 1)
    (by decide) (by decide) (by decide) (by decide) (by decide)

/-- Claim C3, counterexample: in the `cfg3`/`st3` instance, column `0`
satisfies the acceptance inequalities (`clo ≤ low` and `high ≤ cup`) with
the accumulated bounds `low = 0`, `high = 1/10`, and the pre-scan guard
holds, yet the column is not marked implied-free: no touching equality row
has coefficient magnitude above a tenth of the column's largest coefficient
(row `0` is an equality with coefficient `1 < 10`; row `1` has coefficient
`100` but is not an equality). -/
theorem claim_C3_counterexample :
    st3.clo 0 ≤ (walkCol cfg3 0 (st3.colEntries 0) (initWalk st3)).low ∧
    (walkCol cfg3 0 (st3.colEntries 0) (initWalk st3)).high ≤ st3.cup 0 ∧
    (phaseA cfg3 st3 (st3.colEntries 0)).1 = true ∧
    (phaseA cfg3 st3 (st3.colEntries 0)).2.1 = false ∧
    (scanCol23 cfg3 0 st3).impliedFree 0 = -1 := by
  decide

/-- Claim C3 (amended): a degree-2/3 candidate column is marked implied
free iff its declared bounds satisfy `clo[j] ≤ low` and `high ≤ cup[j]`
for the accumulated walk bounds *and* some row touching the column is an
equality (`|rlo-rup| < tol`) with coefficient magnitude above a tenth of
the column's largest coefficient magnitude. -/
theorem claim_C3 (cfg : Cfg) (j : Nat) (s : St)
    (hA : (phaseA cfg s (s.colEntries j)).1 = true)
    (hB : (phaseA cfg s (s.colEntries j)).2.1 = false)
    (hIF : s.impliedFree j = -1)
    (hWF : ∀ e ∈ s.colEntries j, hinrow s e.1 ≤ cfg.ncols) :
    (scanCol23 cfg j s).impliedFree j ≠ -1 ↔
      (s.clo j ≤ (walkCol cfg j (s.colEntries j) (initWalk s)).low ∧
       (walkCol cfg j (s.colEntries j) (initWalk s)).high ≤ s.cup j ∧
       ∃ e ∈ s.colEntries j, |s.rlo e.1 - s.rup e.1| < cfg.tol ∧
         (phaseA cfg s (s.colEntries j)).2.2 / 10 < |e.2|) := by
  have hro := walkCol_ro cfg j (s.colEntries j) (initWalk s)
  have hclo : (walkCol cfg j (s.colEntries j) (initWalk s)).clo = s.clo :=
    roPart_clo hro
  have hcup : (walkCol cfg j (s.colEntries j) (initWalk s)).cup = s.cup :=
    roPart_cup hro
  have hrlo : (walkCol cfg j (s.colEntries j) (initWalk s)).rlo = s.rlo :=
    roPart_rlo hro
  have hrup : (walkCol cfg j (s.colEntries j) (initWalk s)).rup = s.rup :=
    roPart_rup hro
  have hrow : (walkCol cfg j (s.colEntries j) (initWalk s)).rowEntries =
      s.rowEntries := roPart_rowEntries hro
  have hif : (walkCol cfg j (s.colEntries j) (initWalk s)).impliedFree =
      s.impliedFree := roPart_impliedFree hro
  unfold scanCol23
  rw [if_pos ⟨hA, hB⟩]
  set th := (phaseA cfg s (s.colEntries j)).2.2 / 10 with hth
  set W := walkCol cfg j (s.colEntries j) (initWalk s) with hWdef
  by_cases hacc : W.clo j ≤ W.low ∧ W.high ≤ W.cup j
  · rw [if_pos hacc]
    unfold scanAccept
    constructor
    · intro hne
      refine ⟨by rw [← hclo]; exact hacc.1, by rw [← hcup]; exact hacc.2, ?_⟩
      cases hsel : (select cfg W (s.colEntries j) th).1 with
      | none =>
          rw [hsel] at hne
          exact absurd (by rw [congrFun hif j, hIF]) hne
      | some k =>
          have hpair : select cfg W (s.colEntries j) th =
              (some k, (select cfg W (s.colEntries j) th).2) := by
            rw [← hsel]
          rcases selectGo_some cfg W th (s.colEntries j) (none, cfg.ncols + 1)
              k ((select cfg W (s.colEntries j) th).2) hpair with
            h0 | ⟨c, hcmem, hq1, hq2, _⟩
          · simp at h0
          · refine ⟨(k, c), hcmem, ?_, hq2⟩
            rw [← hrlo, ← hrup]
            exact hq1
    · rintro ⟨hb1, hb2, e, hmem, hq1, hq2⟩
      have hsome : (select cfg W (s.colEntries j) th).1.isSome = true := by
        apply selectGo_isSome cfg W th (s.colEntries j) (none, cfg.ncols + 1)
        refine Or.inl ⟨e, hmem, ?_, hq2, ?_⟩
        · rw [hrlo, hrup]
          exact hq1
        · have hre : hinrow W e.1 = hinrow s e.1 := by
            unfold hinrow
            rw [hrow]
          rw [hre]
          exact Nat.lt_succ_of_le (hWF e hmem)
      cases hsel : (select cfg W (s.colEntries j) th).1 with
      | none =>
          rw [hsel] at hsome
          simp at hsome
      | some k =>
          show Function.update W.impliedFree j (k : Int) j ≠ -1
          rw [Function.update_same]
          omega
  · rw [if_neg hacc]
    constructor
    · intro hne
      exact absurd (by rw [congrFun hif j, hIF]) hne
    · rintro ⟨hb1, hb2, _⟩
      refine absurd ⟨?_, ?_⟩ hacc
      · rw [hclo]
        exact hb1
      · rw [hcup]
        exact hb2

/-- Claim C3, witness: the accepted free column `0` of the `cfg1`/`st1`
instance realises both sides of the amended equivalence. -/
theorem claim_C3_witness :
    ((scanCol23 cfg1 0 (initSt st1)).impliedFree 0 ≠ -1 ↔
      ((initSt st1).clo 0 ≤
          (walkCol cfg1 0 ((initSt st1).colEntries 0) (initWalk (initSt st1))).low ∧
        (walkCol cfg1 0 ((initSt st1).colEntries 0) (initWalk (initSt st1))).high ≤
          (initSt st1).cup 0 ∧
        ∃ e ∈ (initSt st1).colEntries 0,
          |(initSt st1).rlo e.1 - (initSt st1).rup e.1| < cfg1.tol ∧
          (phaseA cfg1 (initSt st1) ((initSt st1).colEntries 0)).2.2 / 10 < |e.2|)) :=
  claim_C3 cfg1 0 (initSt st1) (by decide) (by decide) (by decide) (by decide)

/-- Claim C5: an accepted degree-2/3 column's chosen defining row `k` is an
equality row touching the column whose coefficient magnitude exceeds a
tenth of the column's largest coefficient magnitude, and among all such
rows it has the minimum number of nonzeros. -/
theorem claim_C5 (cfg : Cfg) (j k : Nat) (s : St)
    (hA : (phaseA cfg s (s.colEntries j)).1 = true)
    (hB : (phaseA cfg s (s.colEntries j)).2.1 = false)
    (hIF : s.impliedFree j = -1)
    (hk : (scanCol23 cfg j s).impliedFree j = (k : Int)) :
    ∃ c, (k, c) ∈ s.colEntries j ∧ |s.rlo k - s.rup k| < cfg.tol ∧
      (phaseA cfg s (s.colEntries j)).2.2 / 10 < |c| ∧
      ∀ e ∈ s.colEntries j, |s.rlo e.1 - s.rup e.1| < cfg.tol →
        (phaseA cfg s (s.colEntries j)).2.2 / 10 < |e.2| →
        hinrow s k ≤ hinrow s e.1 := by
  have hro := walkCol_ro cfg j (s.colEntries j) (initWalk s)
  have hrlo : (walkCol cfg j (s.colEntries j) (initWalk s)).rlo = s.rlo :=
    roPart_rlo hro
  have hrup : (walkCol cfg j (s.colEntries j) (initWalk s)).rup = s.rup :=
    roPart_rup hro
  have hrow : (walkCol cfg j (s.colEntries j) (initWalk s)).rowEntries =
      s.rowEntries := roPart_rowEntries hro
  have hif : (walkCol cfg j (s.colEntries j) (initWalk s)).impliedFree =
      s.impliedFree := roPart_impliedFree hro
  unfold scanCol23 at hk
  rw [if_pos ⟨hA, hB⟩] at hk
  set th := (phaseA cfg s (s.colEntries j)).2.2 / 10 with hth
  set W := walkCol cfg j (s.colEntries j) (initWalk s) with hWdef
  by_cases hacc : W.clo j ≤ W.low ∧ W.high ≤ W.cup j
  · rw [if_pos hacc] at hk
    unfold scanAccept at hk
    cases hsel : (select cfg W (s.colEntries j) th).1 with
    | none =>
        rw [hsel] at hk
        rw [congrFun hif j, hIF] at hk
        exfalso
        omega
    | some k1 =>
        rw [hsel] at hk
        have hk1 : Function.update W.impliedFree j (k1 : Int) j = (k : Int) := hk
        rw [Function.update_same] at hk1
        have hkk : k1 = k := by omega
        subst hkk
        have hpair : select cfg W (s.colEntries j) th =
            (some k1, (select cfg W (s.colEntries j) th).2) := by
          rw [← hsel]
        rcases selectGo_some cfg W th (s.colEntries j) (none, cfg.ncols + 1)
            k1 ((select cfg W (s.colEntries j) th).2) hpair with
          h0 | ⟨c, hcmem, hq1, hq2, hm⟩
        · simp at h0
        · refine ⟨c, hcmem, ?_, hq2, ?_⟩
          · rw [← hrlo, ← hrup]
            exact hq1
          · intro e hmem he1 he2
            have hmin := selectGo_min cfg W th (s.colEntries j)
              (none, cfg.ncols + 1) e hmem (by rw [hrlo, hrup]; exact he1) he2
            have hrk : hinrow W k1 = hinrow s k1 := by
              unfold hinrow
              rw [hrow]
            have hre : hinrow W e.1 = hinrow s e.1 := by
              unfold hinrow
              rw [hrow]
            rw [← hrk, ← hre, hm]
            exact hmin
  · rw [if_neg hacc] at hk
    rw [congrFun hif j, hIF] at hk
    exfalso
    omega

/-- Claim C5, witness: in the `cfg1`/`st1` instance, column `0`'s chosen
defining row `0` qualifies and is minimal. -/
theorem claim_C5_witness :
    ∃ c, ((0 : Nat), c) ∈ (initSt st1).colEntries 0 ∧
      |(initSt st1).rlo 0 - (initSt st1).rup 0| < cfg1.tol ∧
      (phaseA cfg1 (initSt st1) ((initSt st1).colEntries 0)).2.2 / 10 < |c| ∧
      ∀ e ∈ (initSt st1).colEntries 0,
        |(initSt st1).rlo e.1 - (initSt st1).rup e.1| < cfg1.tol →
        (phaseA cfg1 (initSt st1) ((initSt st1).colEntries 0)).2.2 / 10 < |e.2| →
        hinrow (initSt st1) 0 ≤ hinrow (initSt st1) e.1 :=
  claim_C5 cfg1 0 0 (initSt st1) (by decide) (by decide) (by decide) (by decide)

theorem walkStep_infeasible (cfg : Cfg) (j : Nat) (e : Nat × ℚ) (s : St)
    (hb : s.broke = false) (hz : ZTOLDP < |e.2|) (ht : s.tag e.1 = -1)
    (hcl : rowClass cfg s e.1 = RowClass.infeasibleUp ∨
           rowClass cfg s e.1 = RowClass.infeasibleDown) :
    walkStep cfg j e s =
      { s with tag := Function.update s.tag e.1 (-3),
               status := s.status ||| 1,
               log := s.log ++ [(e.1, s.rlo e.1, s.rup e.1)],
               broke := true } := by
  unfold walkStep
  rw [if_pos hz, if_pos ht]
  have hcomp : computeRow cfg e.1 s =
      { s with tag := Function.update s.tag e.1 (-3),
               status := s.status ||| 1,
               log := s.log ++ [(e.1, s.rlo e.1, s.rup e.1)],
               broke := true } := by
    unfold computeRow
    rcases hcl with h | h <;> rw [h]
  rw [hcomp]
  unfold walkStepGo
  rw [if_pos rfl]

/-- Claim C7: if, while scanning a degree-2/3 candidate column, the summary
computation of one of its rows classifies the row infeasible, then the
whole pass (i) has the sticky status bit `1` set in its final state, (ii)
has the diagnostic `(row, rlo[row], rup[row])` in its final message log,
and (iii) the column's walk aborts there: the rows after the infeasible one
are never used for bound propagation; and the pass still returns a final
state (it is a total function). -/
theorem claim_C7 (cfg : Cfg) (L1 L2 : List Nat) (j : Nat) (s0 : St)
    (l1 l2 : List (Nat × ℚ)) (e : Nat × ℚ)
    (hab : (scanColumns cfg L1 s0).aborted = false)
    (hr1 : hincol (scanColumns cfg L1 s0) j ≤ 3)
    (hr2 : cfg.integerType j = false)
    (hr3 : 1 < hincol (scanColumns cfg L1 s0) j)
    (hA : (phaseA cfg (scanColumns cfg L1 s0)
      ((scanColumns cfg L1 s0).colEntries j)).1 = true)
    (hB : (phaseA cfg (scanColumns cfg L1 s0)
      ((scanColumns cfg L1 s0).colEntries j)).2.1 = false)
    (hsplit : (scanColumns cfg L1 s0).colEntries j = l1 ++ e :: l2)
    (hb : (walkCol cfg j l1 (initWalk (scanColumns cfg L1 s0))).broke = false)
    (hz : ZTOLDP < |e.2|)
    (ht : (walkCol cfg j l1 (initWalk (scanColumns cfg L1 s0))).tag e.1 = -1)
    (hcl : rowClass cfg (walkCol cfg j l1 (initWalk (scanColumns cfg L1 s0)))
        e.1 = RowClass.infeasibleUp ∨
      rowClass cfg (walkCol cfg j l1 (initWalk (scanColumns cfg L1 s0)))
        e.1 = RowClass.infeasibleDown) :
    (scanColumns cfg (L1 ++ j :: L2) s0).status.testBit 0 = true ∧
    (e.1, s0.rlo e.1, s0.rup e.1) ∈ (scanColumns cfg (L1 ++ j :: L2) s0).log ∧
    walkCol cfg j (l1 ++ e :: l2) (initWalk (scanColumns cfg L1 s0)) =
      walkCol cfg j (l1 ++ [e]) (initWalk (scanColumns cfg L1 s0)) := by
  set s1 := scanColumns cfg L1 s0 with hs1
  set w1 := walkCol cfg j l1 (initWalk s1) with hw1
  have hstep := walkStep_infeasible cfg j e w1 hb hz ht hcl
  have hwalk : walkCol cfg j (l1 ++ e :: l2) (initWalk s1) =
      { w1 with tag := Function.update w1.tag e.1 (-3),
                status := w1.status ||| 1,
                log := w1.log ++ [(e.1, w1.rlo e.1, w1.rup e.1)],
                broke := true } := by
    rw [walkCol_append, ← hw1, walkCol_cons,
      if_neg (show ¬ w1.broke = true by rw [hb]; exact Bool.false_ne_true),
      hstep]
    exact walkCol_of_broke cfg j l2 _ rfl
  have hfr := scanColumns_frame cfg L1 s0
  have hrloW : w1.rlo = s0.rlo := by
    have h1 : w1.rlo = s1.rlo := roPart_rlo (walkCol_ro cfg j l1 (initWalk s1))
    rw [h1]
    exact scanFrame_rlo hfr
  have hrupW : w1.rup = s0.rup := by
    have h1 : w1.rup = s1.rup := roPart_rup (walkCol_ro cfg j l1 (initWalk s1))
    rw [h1]
    exact scanFrame_rup hfr
  have hcol : scanCol cfg j s1 = scanCol23 cfg j s1 := by
    unfold scanCol
    rw [if_pos ⟨hr1, hr2⟩, if_pos hr3]
  have hSC : (scanCol23 cfg j s1).status.testBit 0 = true ∧
      (e.1, s0.rlo e.1, s0.rup e.1) ∈ (scanCol23 cfg j s1).log := by
    unfold scanCol23
    rw [if_pos ⟨hA, hB⟩, hsplit, hwalk]
    constructor
    · split
      · rw [(scanAccept_statLog cfg j _ _ _).1]
        exact statusBit_or w1.status
      · exact statusBit_or w1.status
    · have hmem : (e.1, s0.rlo e.1, s0.rup e.1) ∈
          w1.log ++ [(e.1, w1.rlo e.1, w1.rup e.1)] := by
        rw [hrloW, hrupW]
        exact List.mem_append_right _ (List.mem_singleton.mpr rfl)
      split
      · rw [(scanAccept_statLog cfg j _ _ _).2]
        exact hmem
      · exact hmem
  have hfin : scanColumns cfg (L1 ++ j :: L2) s0 =
      scanColumns cfg L2 (scanCol cfg j s1) := by
    rw [scanColumns_append, ← hs1, scanColumns_cons,
      if_neg (show ¬ s1.aborted = true by rw [hab]; exact Bool.false_ne_true)]
  refine ⟨?_, ?_, ?_⟩
  · rw [hfin, hcol]
    exact scanColumns_status cfg L2 _ hSC.1
  · rw [hfin, hcol]
    exact scanColumns_log cfg L2 _ _ hSC.2
  · rw [hwalk, walkCol_append, ← hw1, walkCol_cons,
      if_neg (show ¬ w1.broke = true by rw [hb]; exact Bool.false_ne_true),
      hstep]
    rfl

/-- Claim C7, witness: in the `cfg7`/`st7` instance, the infeasible row `0`
(`10 ≤ x0 + x2 ≤ 11` with both columns in `[0,1]`) is hit while scanning
column `0`: the pass's final state has the status bit set and the
diagnostic recorded, and the walk aborted. -/
theorem claim_C7_witness :
    (scanColumns cfg7 ([] ++ 0 :: []) st7).status.testBit 0 = true ∧
    ((0 : Nat), st7.rlo 0, st7.rup 0) ∈ (scanColumns cfg7 ([] ++ 0 :: []) st7).log ∧
    walkCol cfg7 0 ([] ++ (0, 1) :: [(1, 1)]) (initWalk (scanColumns cfg7 [] st7)) =
      walkCol cfg7 0 ([] ++ [(0, 1)]) (initWalk (scanColumns cfg7 [] st7)) :=
  claim_C7 cfg7 [] [] 0 st7 [] [(1, 1)] (0, 1) (by decide) (by decide)
    (by decide) (by decide) (by decide) (by decide) (by decide) (by decide)
    (by decide) (by decide) (Or.inl (by decide))

end CoinImpliedFree
